import Mathlib

/-!
Verification development for the comment-analysis pipeline
(`analysis_logic.py` and `app.py`).

Python strings are modelled as `List Char`.  Compound sentiment scores are
modelled as exact rationals: the code compares floating-point scores with
the literal thresholds, and every claim is about the comparison structure,
not about binary rounding.  External collaborators (the VADER scorer and
the Ollama text-generation service) are modelled as function parameters,
following the design notes of the specification; a call to the service is
recorded in an explicit trace so that "the service was not contacted" is
observable.
-/

/-- The double-quote character (written via its code point to keep string
literals free of quotes). -/
def quoteC : Char := Char.ofNat 34

/-- The backslash character. -/
def backslashC : Char := Char.ofNat 92

/-- Opening curly brace. -/
def lbraceC : Char := Char.ofNat 123

/-- Closing curly brace. -/
def rbraceC : Char := Char.ofNat 125

/-- The apostrophe character. -/
def aposC : Char := Char.ofNat 39

/-- A regex word character (`\w`, ASCII fragment): letters, digits, underscore. -/
def isWordChar (c : Char) : Bool := c.isAlphanum || c = '_'

/-- `{'text': ..., 'score': ...}` dictionaries built by `analyze_comments_vader`. -/
structure ScoredComment where
  text : List Char
  score : ℚ
deriving DecidableEq

/-- The `analysis_results` dictionary of `analyze_comments_vader`. -/
structure AnalysisResults where
  positive_comments : List ScoredComment
  negative_comments : List ScoredComment
  neutral_comments : List ScoredComment
deriving DecidableEq

/-- The three sentiment buckets. -/
inductive Sentiment
  | positive
  | negative
  | neutral
deriving DecidableEq

/-- The threshold rule of `analyze_comments_vader` (analysis_logic.py lines
77-82) as a function of the compound score alone. -/
def classify (compound_score : ℚ) : Sentiment :=
  if compound_score ≥ 5/100 then Sentiment.positive
  else if compound_score ≤ -(5/100) then Sentiment.negative
  else Sentiment.neutral

/-- `analyze_comments_vader` (analysis_logic.py lines 67-83).  The VADER
scorer `analyzer.polarity_scores(comment)['compound']` is the external
black-box parameter `scorer`.  The Python loop appends to the three bucket
lists in input order; the recursion below produces the same three lists. -/
def analyze_comments_vader (scorer : List Char → ℚ) : List (List Char) → AnalysisResults
  | [] => ⟨[], [], []⟩
  | comment :: rest =>
    let r := analyze_comments_vader scorer rest
    let compound_score := scorer comment
    let sentiment_data : ScoredComment := ⟨comment, compound_score⟩
    if compound_score ≥ 5/100 then
      { r with positive_comments := sentiment_data :: r.positive_comments }
    else if compound_score ≤ -(5/100) then
      { r with negative_comments := sentiment_data :: r.negative_comments }
    else
      { r with neutral_comments := sentiment_data :: r.neutral_comments }

/-- Result and call-trace type of the summarization gateway: the first
component is the returned HTML fragment, the second is the list of prompts
sent to the external service during the call. -/
abbrev SummarizeResult := List Char × List (List Char)

/-- The fixed fragment returned for an empty bucket
(`f"<p>No {category} comments to analyze.</p>"`). -/
def no_comments_fragment (category : List Char) : List Char :=
  "<p>No ".toList ++ category ++ " comments to analyze.</p>".toList

/-- One line of the comment excerpt: `f"- \"{c['text']}\""`. -/
def quoteLine (t : List Char) : List Char :=
  '-' :: ' ' :: quoteC :: t ++ [quoteC]

/-- Python `"\n".join`. -/
def joinNewline : List (List Char) → List Char
  | [] => []
  | [x] => x
  | x :: y :: rest => x ++ '\n' :: joinNewline (y :: rest)

/-- The fixed instruction text of the summarization prompt, around the
category label. -/
def ollamaPromptHead (category : List Char) : List Char :=
  "You are a TECHNO DJ analyst. Based ONLY on the following ".toList ++
  aposC :: category ++ aposC ::
  " comments, summarize the key themes in 2-3 concise bullet points. Format the output as simple HTML bullet points using <ul> and <li> tags.\n\nComments:\n".toList

/-- The full outbound prompt of `summarize_with_ollama`: instruction plus the
excerpt built from `comments[:30]`. -/
def ollamaPrompt (comments : List ScoredComment) (category : List Char) : List Char :=
  ollamaPromptHead category ++
  joinNewline ((comments.take 30).map (fun c => quoteLine c.text))

/-- The inline error fragment of `summarize_with_ollama`
(`f"<p class='text-red-400'>Error communicating with Ollama: {e}</p>"`). -/
def ollama_error_fragment (e : List Char) : List Char :=
  "<p class=".toList ++ aposC :: "text-red-400".toList ++ aposC ::
  ">Error communicating with Ollama: ".toList ++ e ++ "</p>".toList

/-- `summarize_with_ollama` (analysis_logic.py lines 85-106).  The external
text-generation call (`requests.post` … `result['message']['content']`) is
the parameter `service`; a `.error` value models any exception raised by the
transport or by the response decoding, which the function's `except` clause
converts into an inline fragment.  The second component records the prompts
actually sent. -/
def summarize_with_ollama (service : List Char → Except (List Char) (List Char))
    (comments : List ScoredComment) (category : List Char) : SummarizeResult :=
  if comments.isEmpty then (no_comments_fragment category, [])
  else
    let prompt := ollamaPrompt comments category
    match service prompt with
    | Except.ok content => (content, [prompt])
    | Except.error e => (ollama_error_fragment e, [prompt])

/-- The `summaries` dictionary built in `app.py` (lines 68-72). -/
structure Summaries where
  positive : List Char
  negative : List Char
  neutral : List Char
deriving DecidableEq

/-- The three summarization calls of `app.py` lines 68-72, one service value
per category so that per-category failures can be expressed. -/
def computeSummaries (svcP svcN svcU : List Char → Except (List Char) (List Char))
    (analysis_data : AnalysisResults) : Summaries :=
  ⟨(summarize_with_ollama svcP analysis_data.positive_comments ("positive".toList)).1,
   (summarize_with_ollama svcN analysis_data.negative_comments ("negative".toList)).1,
   (summarize_with_ollama svcU analysis_data.neutral_comments ("neutral".toList)).1⟩

/-- Scan for the lazily-matched end of an HTML tag: the chars matched by
`[^<]+?` followed by `>`. -/
def tagScan : List Char → Option (List Char)
  | [] => none
  | c :: rest => if c = '>' then some rest else if c = '<' then none else tagScan rest

/-- Attempt to match `[^<]+?>` (at least one non-`<` char, lazily, then `>`)
right after a `<`; returns the remainder after the tag on success. -/
def tagMatch : List Char → Option (List Char)
  | [] => none
  | c :: rest => if c = '<' then none else tagScan rest

/-- Fuelled scanner for `re.sub('<[^<]+?>', '', s)`: leftmost matches are
removed, a `<` that starts no match is kept. -/
def stripTagsF : Nat → List Char → List Char
  | 0, s => s
  | _, [] => []
  | fuel + 1, c :: rest =>
    if c = '<' then
      match tagMatch rest with
      | some rem => stripTagsF fuel rem
      | none => c :: stripTagsF fuel rest
    else c :: stripTagsF fuel rest

/-- `re.sub('<[^<]+?>', '', s)` as used on the summaries in
`generate_strategic_conclusion`.  One unit of fuel is spent per character
reached, so `s.length` fuel is always enough. -/
def stripTags (s : List Char) : List Char := stripTagsF s.length s

/-- Python runtime errors that the embedding makes explicit. -/
inductive PyError
  | zeroDivisionError
deriving DecidableEq

/-- Decimal rendering of a natural number. -/
def natToChars (n : Nat) : List Char := (Nat.repr n).toList

/-- The `f"{x:.1%}"` interpolation applied to `num/denom`: in Python the
division is evaluated first and raises `ZeroDivisionError` when `denom` is
0.  (The decimal rendering below rounds the exact rational; the binary
floating-point formatting may differ in the last decimal digit on some
inputs, which no claim depends on.) -/
def formatPercent1 (num denom : Nat) : Except PyError (List Char) :=
  if denom = 0 then Except.error PyError.zeroDivisionError
  else
    let tenths := (num * 1000 + denom / 2) / denom
    Except.ok (natToChars (tenths / 10) ++ '.' :: natToChars (tenths % 10) ++ ['%'])

/-- The inline error fragment of `generate_strategic_conclusion`. -/
def strategic_error_fragment (e : List Char) : List Char :=
  "<p class=".toList ++ aposC :: "text-red-400".toList ++ aposC ::
  ">Failed to generate strategic conclusion: ".toList ++ e ++ "</p>".toList

/-- The strategic prompt of `generate_strategic_conclusion` (lines 117-130),
assembled from the statistics and the cleaned summaries. -/
def strategicPromptText (total_comments num_positive num_negative : Nat)
    (pctPos pctNeg clean_positive_summary clean_negative_summary : List Char) : List Char :=
  "You are a Techno DJ strategy consultant. I will provide you with a sentiment analysis report for a video. Your task is to provide 3-4 actionable, strategic suggestions for the mathame dj duo. Focus on what".toList ++
  aposC :: "s working (strengths to double down on), what isn".toList ++
  aposC :: "t (weaknesses to address), and how they can improve audience engagement or content strategy. Format the output as an HTML unordered list (`<ul>` and `<li>` tags).\n\n--- ANALYSIS REPORT ---\nTotal Comments: ".toList ++
  natToChars total_comments ++ "\nPositive Comments: ".toList ++
  natToChars num_positive ++ " (".toList ++ pctPos ++ ")\nNegative Comments: ".toList ++
  natToChars num_negative ++ " (".toList ++ pctNeg ++ ")\n\nKey Positive Themes:\n".toList ++
  clean_positive_summary ++ "\n\nKey Negative Themes:\n".toList ++
  clean_negative_summary ++ "\n--- END REPORT ---\n\nStrategic Suggestions:".toList

/-- `generate_strategic_conclusion` (analysis_logic.py lines 108-139).  The
percentage interpolations `{num_positive/total_comments:.1%}` and
`{num_negative/total_comments:.1%}` happen while the prompt f-string is
built, before and outside the `try:` block, so a zero `total_comments`
raises `ZeroDivisionError` out of the function; the `except` clause only
covers the service call. -/
def generate_strategic_conclusion (service : List Char → Except (List Char) (List Char))
    (total_comments : Nat) (results : AnalysisResults) (summaries : Summaries) :
    Except PyError (List Char) := do
  let num_positive := results.positive_comments.length
  let num_negative := results.negative_comments.length
  let clean_positive_summary := stripTags summaries.positive
  let clean_negative_summary := stripTags summaries.negative
  let pctPos ← formatPercent1 num_positive total_comments
  let pctNeg ← formatPercent1 num_negative total_comments
  let prompt := strategicPromptText total_comments num_positive num_negative
    pctPos pctNeg clean_positive_summary clean_negative_summary
  pure (match service prompt with
    | Except.ok content => content
    | Except.error e => strategic_error_fragment e)

/-- Word boundary `\b` after the last matched character (which is always a
digit): satisfied at end of string or before a non-word character. -/
def wbAfter : List Char → Bool
  | [] => true
  | c :: _ => !(isWordChar c)

/-- The part of the timestamp pattern after the hour digits:
`:\d{2}(?::\d{2})?\b` with the greedy optional seconds group tried first,
falling back (as the regex engine backtracks) to the minutes-only form.
Returns the matched characters and the remainder. -/
def matchTail (s : List Char) : Option (List Char × List Char) :=
  match s with
  | ':' :: m1 :: m2 :: rest =>
    if m1.isDigit && m2.isDigit then
      match rest with
      | ':' :: s1 :: s2 :: rest2 =>
        if s1.isDigit && s2.isDigit && wbAfter rest2 then
          some ([':', m1, m2, ':', s1, s2], rest2)
        else if wbAfter rest then some ([':', m1, m2], rest) else none
      | _ => if wbAfter rest then some ([':', m1, m2], rest) else none
    else none
  | _ => none

/-- One anchored attempt of `\d{1,2}:\d{2}(?::\d{2})?\b` at the head of `s`
(the leading `\b` is checked by the scanner).  `\d{1,2}` is greedy: two hour
digits are tried first; when the second character is a digit the one-digit
fallback would need that digit to be a `:`, so it always fails and is not
re-attempted. -/
def matchTs (s : List Char) : Option (List Char × List Char) :=
  match s with
  | d1 :: d2 :: rest =>
    if d1.isDigit then
      if d2.isDigit then
        match matchTail rest with
        | some (t, rem) => some (d1 :: d2 :: t, rem)
        | none => none
      else
        match matchTail (d2 :: rest) with
        | some (t, rem) => some (d1 :: t, rem)
        | none => none
    else none
  | _ => none

/-- Fuelled left-to-right non-overlapping scan of
`re.findall(r'\b(\d{1,2}:\d{2}(?::\d{2})?)\b', s)`.  `prevWord` records
whether the previous character is a word character (`\b` before a digit
holds exactly when it is not); after a match the scan resumes after the
matched text, whose last character is a digit, hence `true`.  One unit of
fuel is spent per character reached, so `s.length` fuel is always enough. -/
def scanTsF : Nat → List Char → Bool → List (List Char)
  | 0, _, _ => []
  | _, [], _ => []
  | fuel + 1, c :: rest, prevWord =>
    if !prevWord && c.isDigit then
      match matchTs (c :: rest) with
      | some (t, rem) => t :: scanTsF fuel rem true
      | none => scanTsF fuel rest (isWordChar c)
    else scanTsF fuel rest (isWordChar c)

/-- `timestamp_regex.findall(text)` of `extract_insights` (line 145/151). -/
def findallTs (s : List Char) : List (List Char) := scanTsF s.length s false

/-- An entry of the `unique_timestamps_map` dictionary (and, with a unit
payload, of the keyword `Counter`): insertion key, payload recorded at first
insertion, running count. -/
structure Entry (α : Type) where
  key : List Char
  pl : α
  count : Nat
deriving DecidableEq

/-- One step of the dictionary-building loop (lines 155-159): a new key is
appended with count 1 and the current payload, an existing key keeps its
payload and position and its count is incremented. -/
def addEntry {α : Type} (acc : List (Entry α)) (k : List Char) (p : α) : List (Entry α) :=
  if acc.any (fun e => e.key = k) then
    acc.map (fun e => if e.key = k then { e with count := e.count + 1 } else e)
  else acc ++ [⟨k, p, 1⟩]

/-- The whole dictionary-building loop over an ordered list of
(key, payload) pairs; the resulting list is in Python dict insertion order,
i.e. first-seen key order. -/
def aggregate {α : Type} (ms : List (List Char × α)) : List (Entry α) :=
  ms.foldl (fun acc m => addEntry acc m.1 m.2) []

/-- Insert an element into a count-descending list, after every element of
count greater than or equal to its own (the placement a stable descending
sort gives to a later element). -/
def insertDescEntry {α : Type} (x : Entry α) : List (Entry α) → List (Entry α)
  | [] => [x]
  | y :: ys => if y.count < x.count then x :: y :: ys else y :: insertDescEntry x ys

/-- Python's stable `list.sort(key=..., reverse=True)` on counts (and
`Counter.most_common`, which is documented to order equal counts by first
insertion): elements are inserted left to right, each after the existing
elements of greater or equal count. -/
def sortEntriesDesc {α : Type} (l : List (Entry α)) : List (Entry α) :=
  l.foldl (fun acc x => insertDescEntry x acc) []

/-- First occurrences of each key, in order (Python dict key order). -/
def firstKeys (l : List (List Char)) : List (List Char) :=
  l.foldl (fun acc k => if k ∈ acc then acc else acc ++ [k]) []

/-- The ordered `(timestamp, source text)` mention pairs collected by the
loop of lines 148-153: per comment, one pair per regex match, carrying the
comment's full text. -/
def allMentions (positive_comments : List ScoredComment) : List (List Char × List Char) :=
  positive_comments.flatMap (fun c => (findallTs c.text).map (fun ts => (ts, c.text)))

/-- Specification-side mention count: the total number of regex matches of
`ts` across the comments, repeats within one comment included. -/
def mentionCount (positive_comments : List ScoredComment) (ts : List Char) : Nat :=
  (positive_comments.map (fun c => (findallTs c.text).count ts)).sum

/-- The `all_positive_text` accumulator (lines 147-150): each comment's text
followed by a space. -/
def allPositiveText (positive_comments : List ScoredComment) : List Char :=
  positive_comments.foldl (fun acc c => acc ++ c.text ++ [' ']) []

/-- Helper for `wordRuns`: `cur` is the reversed run of word characters read
so far. -/
def wordRunsAux (cur : List Char) : List Char → List (List Char)
  | [] => if cur = [] then [] else [cur.reverse]
  | c :: rest =>
    if isWordChar c then wordRunsAux (c :: cur) rest
    else if cur = [] then wordRunsAux [] rest
    else cur.reverse :: wordRunsAux [] rest

/-- The maximal runs of word characters of a string, in order.
`re.findall(r'\b\w{4,}\b', s)` is exactly the runs of length at least 4:
a shorter match of `\w{4,}` inside a run would put `\b` between two word
characters. -/
def wordRuns (s : List Char) : List (List Char) := wordRunsAux [] s

/-- The stopword set of line 166. -/
def stopwords : List (List Char) :=
  ["this".toList, "that".toList, "with".toList, "what".toList, "from".toList,
   "your".toList, "have".toList, "just".toList, "like".toList, "love".toList,
   "video".toList]

/-- `re.findall(r'\b\w{4,}\b', all_positive_text.lower())` followed by the
stopword filter (lines 165-167). -/
def meaningfulWords (positive_comments : List ScoredComment) : List (List Char) :=
  ((wordRuns ((allPositiveText positive_comments).map Char.toLower)).filter
      (fun w => 4 ≤ w.length)).filter (fun w => w ∉ stopwords)

/-- The value returned by `extract_insights`:
`top_timestamps_with_comments` keeps the dictionary field names
(`timestamp` = key, `comment` = payload, `count`). -/
structure Insights where
  top_timestamps_with_comments : List (Entry (List Char))
  top_keywords : List (List Char × Nat)
deriving DecidableEq

/-- `extract_insights` (analysis_logic.py lines 141-171): timestamp mentions
are aggregated in first-seen order, stably sorted by count descending and
truncated to 5; meaningful words are counted (`Counter`) and the top 10 by
frequency, equal frequencies in first-seen order, are returned
(`most_common(10)`). -/
def extract_insights (positive_comments : List ScoredComment) : Insights :=
  let top := (sortEntriesDesc (aggregate (allMentions positive_comments))).take 5
  let kws := (sortEntriesDesc (aggregate
      ((meaningfulWords positive_comments).map (fun w => (w, ()))))).take 10
  ⟨top, kws.map (fun e => (e.key, e.count))⟩

/-- The five histogram bins of `generate_html_report` (line 204), in the
order of the `score_bins` dictionary. -/
structure ScoreBins where
  bin_neg_low : Nat
  bin_neg_high : Nat
  bin_neutral : Nat
  bin_pos_low : Nat
  bin_pos_high : Nat
deriving DecidableEq

/-- The histogram computation of `generate_html_report` (lines 197-210): the
neutral bin is initialised with the full neutral-bucket count; each negative
score is tested against `[-1.0,-0.6)` then `[-0.6,-0.2)`, each positive
score against `[0.2,0.6)` then `[0.6,1.0]`; a score matching neither test of
its loop leaves the bins unchanged.  One iteration of the negative-score
loop (lines 205-207): -/
def negStep (b : ScoreBins) (s : ℚ) : ScoreBins :=
  if -1 ≤ s ∧ s < -(6/10) then { b with bin_neg_low := b.bin_neg_low + 1 }
  else if -(6/10) ≤ s ∧ s < -(2/10) then { b with bin_neg_high := b.bin_neg_high + 1 }
  else b

/-- One iteration of the positive-score loop (lines 208-210). -/
def posStep (b : ScoreBins) (s : ℚ) : ScoreBins :=
  if 2/10 ≤ s ∧ s < 6/10 then { b with bin_pos_low := b.bin_pos_low + 1 }
  else if 6/10 ≤ s ∧ s ≤ 1 then { b with bin_pos_high := b.bin_pos_high + 1 }
  else b

def score_bins (results : AnalysisResults) : ScoreBins :=
  let negative_scores := results.negative_comments.map ScoredComment.score
  let positive_scores := results.positive_comments.map ScoredComment.score
  let init : ScoreBins := ⟨0, 0, results.neutral_comments.length, 0, 0⟩
  positive_scores.foldl posStep (negative_scores.foldl negStep init)

/-- Hexadecimal digit characters, lowercase as produced by Python's
`'\u%04x'` escapes. -/
def hexDigitChar (n : Nat) : Char :=
  match n with
  | 0 => '0' | 1 => '1' | 2 => '2' | 3 => '3' | 4 => '4'
  | 5 => '5' | 6 => '6' | 7 => '7' | 8 => '8' | 9 => '9'
  | 10 => 'a' | 11 => 'b' | 12 => 'c' | 13 => 'd' | 14 => 'e'
  | _ => 'f'

/-- A `\uXXXX` escape for a code unit below 0x10000. -/
def uEscape (n : Nat) : List Char :=
  [backslashC, 'u', hexDigitChar (n / 4096 % 16), hexDigitChar (n / 256 % 16),
   hexDigitChar (n / 16 % 16), hexDigitChar (n % 16)]

/-- `json.dump`'s default (`ensure_ascii=True`) escaping of one character:
quote and backslash get two-character escapes, the five named control
characters get their short escapes, the other printable ASCII characters are
literal, everything else becomes `\uXXXX` escapes — as a surrogate pair for
code points above 0xFFFF. -/
def escapeChar (c : Char) : List Char :=
  if c = quoteC then [backslashC, quoteC]
  else if c = backslashC then [backslashC, backslashC]
  else if c = Char.ofNat 8 then [backslashC, 'b']
  else if c = Char.ofNat 9 then [backslashC, 't']
  else if c = Char.ofNat 10 then [backslashC, 'n']
  else if c = Char.ofNat 12 then [backslashC, 'f']
  else if c = Char.ofNat 13 then [backslashC, 'r']
  else if 32 ≤ c.toNat ∧ c.toNat ≤ 126 then [c]
  else if c.toNat < 65536 then uEscape c.toNat
  else
    uEscape (55296 + (c.toNat - 65536) / 1024) ++
    uEscape (56320 + (c.toNat - 65536) % 1024)

/-- The JSON encoding of a string's contents (between the quotes). -/
def escapeString (s : List Char) : List Char := (s.map escapeChar).flatten

/-- One `"key": "value"` member as `json.dump` renders it. -/
def renderEntryJson (k v : List Char) : List Char :=
  quoteC :: escapeString k ++ quoteC :: ':' :: ' ' :: quoteC :: escapeString v ++ [quoteC]

/-- The four-space indent of `json.dump(..., indent=4)`. -/
def indent4 : List Char := [' ', ' ', ' ', ' ']

/-- The members of the object joined by `json.dump`'s item separator for
`indent=4`: a comma, a newline and the indent. -/
def renderMembers : List (List Char × List Char) → List Char
  | [] => []
  | [(k, v)] => renderEntryJson k v
  | (k, v) :: m :: rest =>
    renderEntryJson k v ++ ',' :: '\n' :: indent4 ++ renderMembers (m :: rest)

/-- `json.dump(reports, f, indent=4)` (analysis_logic.py line 189): the
whole-file rewrite of the registry store. -/
def json_dump (m : List (List Char × List Char)) : List Char :=
  if m = [] then [lbraceC, rbraceC]
  else lbraceC :: '\n' :: indent4 ++ renderMembers m ++ '\n' :: [rbraceC]

/-- JSON whitespace. -/
def isJsonWs (c : Char) : Bool := c = ' ' || c = '\t' || c = '\n' || c = '\r'

/-- Skip JSON whitespace. -/
def skipWs (s : List Char) : List Char := s.dropWhile isJsonWs

/-- The value of one hexadecimal digit character. -/
def hexVal (c : Char) : Option Nat :=
  if '0' ≤ c ∧ c ≤ '9' then some (c.toNat - 48)
  else if 'a' ≤ c ∧ c ≤ 'f' then some (c.toNat - 87)
  else if 'A' ≤ c ∧ c ≤ 'F' then some (c.toNat - 55)
  else none

/-- Four hexadecimal digits. -/
def parseHex4 : List Char → Option (Nat × List Char)
  | a :: b :: c :: d :: rest =>
    match hexVal a, hexVal b, hexVal c, hexVal d with
    | some x, some y, some z, some w => some (((x * 16 + y) * 16 + z) * 16 + w, rest)
    | _, _, _, _ => none
  | _ => none

/-- Decode one JSON escape sequence after the backslash, returning the
decoded character and the remaining input: the named escapes, and `\uXXXX`
escapes where a high surrogate must be completed by a low-surrogate escape
(the model strings are Unicode scalar sequences, so the lone surrogates
Python would tolerate are unrepresentable and rejected). -/
def parseEscapeSeq : List Char → Option (Char × List Char)
  | [] => none
  | e :: rest2 =>
    if e = quoteC then some (quoteC, rest2)
    else if e = backslashC then some (backslashC, rest2)
    else if e = '/' then some ('/', rest2)
    else if e = 'b' then some (Char.ofNat 8, rest2)
    else if e = 'f' then some (Char.ofNat 12, rest2)
    else if e = 'n' then some (Char.ofNat 10, rest2)
    else if e = 'r' then some (Char.ofNat 13, rest2)
    else if e = 't' then some (Char.ofNat 9, rest2)
    else if e = 'u' then
      match parseHex4 rest2 with
      | none => none
      | some (n, rest3) =>
        if 55296 ≤ n ∧ n < 56320 then
          match rest3 with
          | b1 :: u1 :: rest4 =>
            if b1 = backslashC ∧ u1 = 'u' then
              match parseHex4 rest4 with
              | none => none
              | some (n2, rest5) =>
                if 56320 ≤ n2 ∧ n2 < 57344 then
                  some (Char.ofNat (65536 + (n - 55296) * 1024 + (n2 - 56320)), rest5)
                else none
            else none
          | _ => none
        else if 56320 ≤ n ∧ n < 57344 then none
        else some (Char.ofNat n, rest3)
    else none

/-- The body of a JSON string after its opening quote, one logical character
per unit of fuel, as `json.load` decodes it: escapes are translated via
`parseEscapeSeq`, raw control characters are rejected (strict mode), the
unescaped quote ends the string. -/
def parseStringBody : Nat → List Char → Option (List Char × List Char)
  | 0, _ => none
  | fuel + 1, s =>
    match s with
    | [] => none
    | c :: rest =>
      if c = quoteC then some ([], rest)
      else if c = backslashC then
        match parseEscapeSeq rest with
        | none => none
        | some (d, rest2) => (parseStringBody fuel rest2).map (fun p => (d :: p.1, p.2))
      else if c.toNat < 32 then none
      else (parseStringBody fuel rest).map (fun p => (c :: p.1, p.2))

/-- One `"key": "value"` member of a JSON object of string values, as
`json.load` scans it: quoted key, colon with optional whitespace, quoted
value; returns the pair and the remaining input. -/
def parseMemberKV (s : List Char) : Option ((List Char × List Char) × List Char) :=
  match s with
  | [] => none
  | c :: rest =>
    if c = quoteC then
      match parseStringBody (rest.length + 1) rest with
      | none => none
      | some (k, r1) =>
        match skipWs r1 with
        | ':' :: r2 =>
          match skipWs r2 with
          | [] => none
          | q2 :: r3 =>
            if q2 = quoteC then
              match parseStringBody (r3.length + 1) r3 with
              | none => none
              | some (v, r4) => some ((k, v), r4)
            else none
        | _ => none
    else none

/-- The members of a JSON object of string values, one member per unit of
fuel, ending at the closing brace; anything but whitespace after it is
rejected (the store holds a single JSON document). -/
def parseMembers : Nat → List Char → Option (List (List Char × List Char))
  | 0, _ => none
  | fuel + 1, s =>
    match parseMemberKV s with
    | none => none
    | some ((k, v), r4) =>
      match skipWs r4 with
      | ',' :: r5 =>
        match parseMembers fuel (skipWs r5) with
        | some ms => some ((k, v) :: ms)
        | none => none
      | c2 :: r5 =>
        if c2 = rbraceC then
          if (skipWs r5).isEmpty then some [(k, v)] else none
        else none
      | [] => none

/-- `json.load(f)` on the registry store (analysis_logic.py line 181,
app.py line 20), for the flat string-to-string objects the store holds:
`none` models `json.JSONDecodeError`. -/
def json_load (s : List Char) : Option (List (List Char × List Char)) :=
  match skipWs s with
  | [] => none
  | c :: rest =>
    if c = lbraceC then
      match skipWs rest with
      | [] => none
      | c2 :: rest2 =>
        if c2 = rbraceC then
          if (skipWs rest2).isEmpty then some [] else none
        else parseMembers (rest.length + 1) (skipWs rest)
    else none

/-- The guarded insertion of `update_landing_page` (lines 185-186): Python
dict assignment keeps the position of an existing key and appends a new
one. -/
def upsertReport (m : List (List Char × List Char)) (k v : List Char) :
    List (List Char × List Char) :=
  if m.any (fun e => e.1 = k) then m.map (fun e => if e.1 = k then (k, v) else e)
  else m ++ [(k, v)]

/-- The load step shared by `update_landing_page` (lines 179-182) and the
`index` route of app.py (lines 15-22): a missing or corrupt store file is
treated as the empty mapping. -/
def loadReports (store : Option (List Char)) : List (List Char × List Char) :=
  match store with
  | none => []
  | some content =>
    match json_load content with
    | some reports => reports
    | none => []

/-- `update_landing_page` (analysis_logic.py lines 173-190) as a function
from the previous store content (none = no file) to the rewritten content:
load-or-default, guarded upsert, full rewrite. -/
def update_landing_page (store : Option (List Char)) (video_id video_title : List Char) :
    List Char :=
  let reports := loadReports store
  let reports2 :=
    if video_id ≠ [] ∧ video_title ≠ [] then upsertReport reports video_id video_title
    else reports
  json_dump reports2

/-- A word boundary to the left of a position whose character is a word
character: start of string or a preceding non-word character. -/
def boundaryLeft (before : List Char) : Prop :=
  before = [] ∨ ∃ p, before.getLast? = some p ∧ isWordChar p = false

/-- A word boundary to the right of a position whose preceding character is
a word character: end of string or a following non-word character. -/
def boundaryRight (after : List Char) : Prop :=
  after = [] ∨ ∃ p, after.head? = some p ∧ isWordChar p = false

/-- A well-formed `hh:mm:ss`-form timestamp string: one or two hour digits,
two minute digits, two second digits. -/
def isHMS (t : List Char) : Prop :=
  ∃ h m1 m2 s1 s2,
    (h.length = 1 ∨ h.length = 2) ∧ (∀ c ∈ h, c.isDigit = true) ∧
    m1.isDigit = true ∧ m2.isDigit = true ∧ s1.isDigit = true ∧ s2.isDigit = true ∧
    t = h ++ ':' :: m1 :: m2 :: ':' :: s1 :: [s2]

/-- "The text contains a timestamp of the hh:mm:ss form": a word-boundary
delimited occurrence of a well-formed `hh:mm:ss` string. -/
def containsHMS (text t : List Char) : Prop :=
  isHMS t ∧ ∃ bef aft, text = bef ++ t ++ aft ∧ boundaryLeft bef ∧ boundaryRight aft

/-! ### Helper lemmas: the sentiment classifier -/

theorem analyze_eq_filter (scorer : List Char → ℚ) (comments : List (List Char)) :
    analyze_comments_vader scorer comments =
      ⟨(comments.filter (fun c => classify (scorer c) = Sentiment.positive)).map
          (fun c => ⟨c, scorer c⟩),
       (comments.filter (fun c => classify (scorer c) = Sentiment.negative)).map
          (fun c => ⟨c, scorer c⟩),
       (comments.filter (fun c => classify (scorer c) = Sentiment.neutral)).map
          (fun c => ⟨c, scorer c⟩)⟩ := by
  induction comments with
  | nil => rfl
  | cons c rest ih =>
    by_cases h1 : scorer c ≥ 5/100
    · simp [analyze_comments_vader, ih, classify, h1, List.filter_cons]
    · by_cases h2 : scorer c ≤ -(5/100)
      · simp [analyze_comments_vader, ih, classify, h1, h2, List.filter_cons]
      · simp [analyze_comments_vader, ih, classify, h1, h2, List.filter_cons]

theorem classify_trichotomy (s : ℚ) :
    (classify s = Sentiment.positive ∧ classify s ≠ Sentiment.negative ∧
        classify s ≠ Sentiment.neutral) ∨
      (classify s ≠ Sentiment.positive ∧ classify s = Sentiment.negative ∧
        classify s ≠ Sentiment.neutral) ∨
      (classify s ≠ Sentiment.positive ∧ classify s ≠ Sentiment.negative ∧
        classify s = Sentiment.neutral) := by
  cases h : classify s <;> simp [h]

theorem classify_pos_iff (s : ℚ) : classify s = Sentiment.positive ↔ 5/100 ≤ s := by
  unfold classify
  by_cases h1 : s ≥ 5/100
  · simp [h1]
  · by_cases h2 : s ≤ -(5/100) <;> simp [h1, h2]

theorem classify_neg_iff (s : ℚ) : classify s = Sentiment.negative ↔ s ≤ -(5/100) := by
  unfold classify
  by_cases h1 : s ≥ 5/100
  · simp [h1]
    linarith
  · by_cases h2 : s ≤ -(5/100) <;> simp [h1, h2]

theorem classify_neu_iff (s : ℚ) :
    classify s = Sentiment.neutral ↔ -(5/100) < s ∧ s < 5/100 := by
  unfold classify
  by_cases h1 : s ≥ 5/100
  · simp only [classify, h1, if_pos]
    constructor
    · intro h
      exact absurd h (by simp)
    · rintro ⟨ha, hb⟩
      linarith
  · by_cases h2 : s ≤ -(5/100)
    · simp only [classify, h1, h2, if_neg, not_false_iff, if_pos]
      constructor
      · intro h
        exact absurd h (by simp)
      · rintro ⟨ha, hb⟩
        linarith
    · simp only [classify, h1, h2, if_neg, not_false_iff]
      constructor
      · intro _
        constructor <;> linarith
      · intro _
        trivial

theorem analyze_length_sum (scorer : List Char → ℚ) (comments : List (List Char)) :
    (analyze_comments_vader scorer comments).positive_comments.length +
      (analyze_comments_vader scorer comments).negative_comments.length +
      (analyze_comments_vader scorer comments).neutral_comments.length =
      comments.length := by
  induction comments with
  | nil => rfl
  | cons c rest ih =>
    by_cases h1 : scorer c ≥ 5/100
    · simp only [analyze_comments_vader, h1, if_pos, List.length_cons]
      omega
    · by_cases h2 : scorer c ≤ -(5/100)
      · simp only [analyze_comments_vader, h1, h2, if_neg, if_pos, not_false_iff,
          List.length_cons]
        omega
      · simp only [analyze_comments_vader, h1, h2, if_neg, not_false_iff, List.length_cons]
        omega

/-- C4: for every comment, the bucket `analyze_comments_vader` places it in
is a pure function of its compound score: the three buckets are exactly the
comments whose scores classify positive, negative and neutral respectively
(paired with their scores, in order), and the threshold rule is
`score ≥ 0.05` → positive (boundary included), `score ≤ -0.05` → negative
(boundary included), anything else — 0.0 included — → neutral. -/
theorem C4_classification_pure_threshold (scorer : List Char → ℚ)
    (comments : List (List Char)) :
    ((analyze_comments_vader scorer comments).positive_comments =
        (comments.filter (fun c => classify (scorer c) = Sentiment.positive)).map
          (fun c => ⟨c, scorer c⟩)) ∧
      ((analyze_comments_vader scorer comments).negative_comments =
        (comments.filter (fun c => classify (scorer c) = Sentiment.negative)).map
          (fun c => ⟨c, scorer c⟩)) ∧
      ((analyze_comments_vader scorer comments).neutral_comments =
        (comments.filter (fun c => classify (scorer c) = Sentiment.neutral)).map
          (fun c => ⟨c, scorer c⟩)) ∧
      (∀ s : ℚ, classify s = Sentiment.positive ↔ 5/100 ≤ s) ∧
      (∀ s : ℚ, classify s = Sentiment.negative ↔ s ≤ -(5/100)) ∧
      (∀ s : ℚ, classify s = Sentiment.neutral ↔ -(5/100) < s ∧ s < 5/100) := by
  refine ⟨?_, ?_, ?_, classify_pos_iff, classify_neg_iff, classify_neu_iff⟩ <;>
    rw [analyze_eq_filter]

/-- Closed instance of `C4_classification_pure_threshold`: boundary scores
0.05, -0.05 and 0.0 on a two-comment run. -/
theorem C4_classification_pure_threshold_witness :
    (classify (5/100) = Sentiment.positive) ∧
      (classify (-(5/100)) = Sentiment.negative) ∧
      (classify 0 = Sentiment.neutral) ∧
      ((analyze_comments_vader (fun _ => (5:ℚ)/100) ["ok".toList]).positive_comments =
        [⟨"ok".toList, 5/100⟩]) := by
  have h := C4_classification_pure_threshold (fun _ => (5:ℚ)/100) ["ok".toList]
  refine ⟨(C4_classification_pure_threshold (fun _ => 0) []).2.2.2.1 (5/100) |>.mpr (by norm_num),
    (C4_classification_pure_threshold (fun _ => 0) []).2.2.2.2.1 (-(5/100)) |>.mpr (by norm_num),
    (C4_classification_pure_threshold (fun _ => 0) []).2.2.2.2.2 0 |>.mpr (by norm_num), ?_⟩
  rw [h.1]
  simp [classify]

/-- C5: the classifier partitions its input: each comment goes to exactly
one bucket (the classification outcomes are mutually exclusive and
exhaustive and the bucket sizes count them), the three bucket sizes sum to
the input length — also for the empty list — and each bucket lists its
comments' texts as a subsequence of the input, preserving relative order. -/
theorem C5_partition (scorer : List Char → ℚ) (comments : List (List Char)) :
    ((analyze_comments_vader scorer comments).positive_comments.length +
        (analyze_comments_vader scorer comments).negative_comments.length +
        (analyze_comments_vader scorer comments).neutral_comments.length =
        comments.length) ∧
      ((analyze_comments_vader scorer comments).positive_comments.length =
        comments.countP (fun c => classify (scorer c) = Sentiment.positive)) ∧
      ((analyze_comments_vader scorer comments).negative_comments.length =
        comments.countP (fun c => classify (scorer c) = Sentiment.negative)) ∧
      ((analyze_comments_vader scorer comments).neutral_comments.length =
        comments.countP (fun c => classify (scorer c) = Sentiment.neutral)) ∧
      (((analyze_comments_vader scorer comments).positive_comments.map
          ScoredComment.text).Sublist comments) ∧
      (((analyze_comments_vader scorer comments).negative_comments.map
          ScoredComment.text).Sublist comments) ∧
      (((analyze_comments_vader scorer comments).neutral_comments.map
          ScoredComment.text).Sublist comments) ∧
      (∀ s : ℚ,
        (classify s = Sentiment.positive ∧ classify s ≠ Sentiment.negative ∧
            classify s ≠ Sentiment.neutral) ∨
          (classify s ≠ Sentiment.positive ∧ classify s = Sentiment.negative ∧
            classify s ≠ Sentiment.neutral) ∨
          (classify s ≠ Sentiment.positive ∧ classify s ≠ Sentiment.negative ∧
            classify s = Sentiment.neutral)) := by
  have he := analyze_eq_filter scorer comments
  refine ⟨analyze_length_sum scorer comments, ?_, ?_, ?_, ?_, ?_, ?_, classify_trichotomy⟩ <;>
    rw [he]
  · simp [← List.countP_eq_length_filter]
  · simp [← List.countP_eq_length_filter]
  · simp [← List.countP_eq_length_filter]
  · rw [List.map_map]
    have h : (ScoredComment.text ∘ fun c => (⟨c, scorer c⟩ : ScoredComment)) = fun c => c := rfl
    rw [h, List.map_id']
    exact List.filter_sublist comments
  · rw [List.map_map]
    have h : (ScoredComment.text ∘ fun c => (⟨c, scorer c⟩ : ScoredComment)) = fun c => c := rfl
    rw [h, List.map_id']
    exact List.filter_sublist comments
  · rw [List.map_map]
    have h : (ScoredComment.text ∘ fun c => (⟨c, scorer c⟩ : ScoredComment)) = fun c => c := rfl
    rw [h, List.map_id']
    exact List.filter_sublist comments

/-- Closed instance of `C5_partition` on a three-comment run. -/
theorem C5_partition_witness :
    (analyze_comments_vader
        (fun c => if c = "good".toList then (1:ℚ)/2 else if c = "bad".toList then -(1:ℚ)/2 else 0)
        ["good".toList, "bad".toList, "meh".toList]).positive_comments.length +
      (analyze_comments_vader
        (fun c => if c = "good".toList then (1:ℚ)/2 else if c = "bad".toList then -(1:ℚ)/2 else 0)
        ["good".toList, "bad".toList, "meh".toList]).negative_comments.length +
      (analyze_comments_vader
        (fun c => if c = "good".toList then (1:ℚ)/2 else if c = "bad".toList then -(1:ℚ)/2 else 0)
        ["good".toList, "bad".toList, "meh".toList]).neutral_comments.length = 3 :=
  (C5_partition _ _).1

/-- C1 (code bug): the claimed zero-total guard does not exist.  For a total
comment count of 0 — in particular for the empty comment list, whose three
buckets are empty — `generate_strategic_conclusion` evaluates
`num_positive/total_comments` while building its prompt, outside the
`try:` block, and raises `ZeroDivisionError` instead of returning the
claimed fixed "insufficient data" fragment; the exception propagates to the
caller before any report is compiled. -/
theorem C1_zero_total_raises (service : List Char → Except (List Char) (List Char))
    (results : AnalysisResults) (summaries : Summaries) :
    generate_strategic_conclusion service 0 results summaries =
      Except.error PyError.zeroDivisionError := by
  simp [generate_strategic_conclusion, formatPercent1, Bind.bind, Except.bind]

/-- Helper: `summarize_with_ollama` looks at its bucket only through the
first 30 comments. -/
theorem summarize_take30 (service : List Char → Except (List Char) (List Char))
    (comments : List ScoredComment) (category : List Char) :
    summarize_with_ollama service comments category =
      summarize_with_ollama service (comments.take 30) category := by
  unfold summarize_with_ollama
  have hemp : (comments.take 30).isEmpty = comments.isEmpty := by
    rcases comments with _ | ⟨c, rest⟩ <;> simp
  have hpr : ollamaPrompt (comments.take 30) category = ollamaPrompt comments category := by
    unfold ollamaPrompt
    rw [List.take_take]
    norm_num
  rw [hemp, hpr]

/-- C7: an empty bucket produces the fixed "no comments in this category"
fragment and an empty call trace (the service is not contacted); a
non-empty bucket produces exactly one service call whose prompt is built
from the first 30 comments in input order — the function's entire result is
invariant under discarding everything after the first 30 comments, and the
excerpt block lists `comments[:30]` (at most 30 entries) in order. -/
theorem C7_summarize_bounded (service : List Char → Except (List Char) (List Char))
    (comments : List ScoredComment) (category : List Char) :
    (comments = [] →
      summarize_with_ollama service comments category = (no_comments_fragment category, [])) ∧
      (comments ≠ [] →
        (summarize_with_ollama service comments category).2 = [ollamaPrompt comments category]) ∧
      (summarize_with_ollama service comments category =
        summarize_with_ollama service (comments.take 30) category) ∧
      (ollamaPrompt comments category =
        ollamaPromptHead category ++
          joinNewline ((comments.take 30).map (fun c => quoteLine c.text))) ∧
      (comments.take 30).length ≤ 30 := by
  refine ⟨?_, ?_, summarize_take30 service comments category, rfl, ?_⟩
  · intro h
    subst h
    rfl
  · intro h
    unfold summarize_with_ollama
    have : comments.isEmpty = false := by
      rcases comments with _ | ⟨c, rest⟩
      · exact absurd rfl h
      · rfl
    rw [this]
    simp only [Bool.false_eq_true, if_false]
    rcases hs : service (ollamaPrompt comments category) <;> rfl
  · rw [List.length_take]
    omega

/-- Closed instance of `C7_summarize_bounded`: a one-comment bucket with an
always-failing service, and the empty bucket. -/
theorem C7_summarize_bounded_witness :
    (summarize_with_ollama (fun _ => Except.error ("down".toList)) [] ("positive".toList) =
        (no_comments_fragment ("positive".toList), [])) ∧
      (summarize_with_ollama (fun _ => Except.error ("down".toList))
          [⟨"nice".toList, 1/2⟩] ("positive".toList)).2 =
        [ollamaPrompt [⟨"nice".toList, 1/2⟩] ("positive".toList)] :=
  ⟨(C7_summarize_bounded (fun _ => Except.error ("down".toList)) [] ("positive".toList)).1 rfl,
   (C7_summarize_bounded (fun _ => Except.error ("down".toList)) [⟨"nice".toList, 1/2⟩]
      ("positive".toList)).2.1 (by simp)⟩

/-- C8: a failure of the negative category's summarization call is isolated:
the positive and neutral summaries do not depend on the negative category's
service at all (so its failure cannot change them, and the pipeline — which
is total in this embedding, the `except` clause turning any service error
into a returned string — continues); when the negative bucket is non-empty
and its service call fails, the negative summary is exactly the inline
error fragment. -/
theorem C8_failure_isolation (analysis_data : AnalysisResults)
    (svcP svcU svcN svcN2 : List Char → Except (List Char) (List Char)) (e : List Char) :
    ((computeSummaries svcP svcN svcU analysis_data).positive =
        (computeSummaries svcP svcN2 svcU analysis_data).positive) ∧
      ((computeSummaries svcP svcN svcU analysis_data).neutral =
        (computeSummaries svcP svcN2 svcU analysis_data).neutral) ∧
      (analysis_data.negative_comments ≠ [] →
        svcN (ollamaPrompt analysis_data.negative_comments ("negative".toList)) =
          Except.error e →
        (computeSummaries svcP svcN svcU analysis_data).negative =
          ollama_error_fragment e) ∧
      ((computeSummaries svcP svcN svcU analysis_data).positive =
        (summarize_with_ollama svcP analysis_data.positive_comments ("positive".toList)).1) := by
  refine ⟨rfl, rfl, ?_, rfl⟩
  intro hne hsvc
  unfold computeSummaries summarize_with_ollama
  have : analysis_data.negative_comments.isEmpty = false := by
    rcases h : analysis_data.negative_comments with _ | ⟨c, rest⟩
    · exact absurd h hne
    · rfl
  rw [this]
  simp only [Bool.false_eq_true, if_false]
  rw [hsvc]

/-- Closed instance of `C8_failure_isolation`: one negative comment, failing
negative service, succeeding positive and neutral services. -/
theorem C8_failure_isolation_witness :
    (computeSummaries (fun _ => Except.ok ("fine".toList)) (fun _ => Except.error ("boom".toList))
        (fun _ => Except.ok ("calm".toList))
        ⟨[], [⟨"awful".toList, -(1:ℚ)/2⟩], []⟩).negative =
      ollama_error_fragment ("boom".toList) :=
  (C8_failure_isolation ⟨[], [⟨"awful".toList, -(1:ℚ)/2⟩], []⟩
      (fun _ => Except.ok ("fine".toList)) (fun _ => Except.ok ("calm".toList))
      (fun _ => Except.error ("boom".toList)) (fun _ => Except.ok ("ignored".toList))
      ("boom".toList)).2.2.1 (by simp) rfl

/-! ### Helper lemmas: dictionary aggregation and the stable descending sort -/

theorem any_key_iff {α : Type} (acc : List (Entry α)) (k : List Char) :
    acc.any (fun e => e.key = k) = true ↔ k ∈ acc.map Entry.key := by
  simp [List.any_eq_true, List.mem_map]

theorem addEntry_keys {α : Type} (acc : List (Entry α)) (k : List Char) (p : α) :
    (addEntry acc k p).map Entry.key =
      if k ∈ acc.map Entry.key then acc.map Entry.key else acc.map Entry.key ++ [k] := by
  unfold addEntry
  by_cases h : acc.any (fun e => e.key = k) = true
  · rw [if_pos h, if_pos ((any_key_iff acc k).mp h), List.map_map]
    apply List.map_congr_left
    intro e _
    by_cases hek : e.key = k <;> simp [hek]
  · rw [if_neg h, if_neg (fun hm => h ((any_key_iff acc k).mpr hm))]
    simp

theorem aggregate_append {α : Type} (ms : List (List Char × α)) (m : List Char × α) :
    aggregate (ms ++ [m]) = addEntry (aggregate ms) m.1 m.2 := by
  simp [aggregate, List.foldl_append]

theorem firstKeys_append (l : List (List Char)) (k : List Char) :
    firstKeys (l ++ [k]) =
      if k ∈ firstKeys l then firstKeys l else firstKeys l ++ [k] := by
  simp [firstKeys, List.foldl_append]

theorem aggregate_keys {α : Type} (ms : List (List Char × α)) :
    (aggregate ms).map Entry.key = firstKeys (ms.map Prod.fst) := by
  induction ms using List.reverseRecOn with
  | nil => rfl
  | append_singleton ms m ih =>
    rw [aggregate_append, addEntry_keys, ih, List.map_append, List.map_singleton,
      firstKeys_append]

theorem mem_firstKeys_aux (k : List Char) (l : List (List Char)) :
    ∀ acc, (k ∈ l.foldl (fun acc k => if k ∈ acc then acc else acc ++ [k]) acc ↔
      k ∈ acc ∨ k ∈ l) := by
  induction l with
  | nil => simp
  | cons a l ih =>
    intro acc
    rw [List.foldl_cons, ih]
    by_cases ha : a ∈ acc
    · rw [if_pos ha]
      constructor
      · rintro (h | h)
        · exact Or.inl h
        · exact Or.inr (List.mem_cons_of_mem a h)
      · rintro (h | h)
        · exact Or.inl h
        · rcases List.mem_cons.mp h with h | h
          · exact Or.inl (h ▸ ha)
          · exact Or.inr h
    · rw [if_neg ha]
      simp only [List.mem_append, List.mem_singleton, List.mem_cons]
      tauto

theorem mem_firstKeys (k : List Char) (l : List (List Char)) :
    k ∈ firstKeys l ↔ k ∈ l := by
  rw [firstKeys, mem_firstKeys_aux]
  simp

theorem firstKeys_nodup_aux (l : List (List Char)) :
    ∀ acc : List (List Char), acc.Nodup →
      (l.foldl (fun acc k => if k ∈ acc then acc else acc ++ [k]) acc).Nodup := by
  induction l with
  | nil => exact fun acc h => h
  | cons a l ih =>
    intro acc hacc
    rw [List.foldl_cons]
    by_cases ha : a ∈ acc
    · rw [if_pos ha]
      exact ih acc hacc
    · rw [if_neg ha]
      refine ih _ ?_
      simpa [List.nodup_append] using ⟨hacc, ha⟩

theorem firstKeys_nodup (l : List (List Char)) : (firstKeys l).Nodup :=
  firstKeys_nodup_aux l [] List.nodup_nil

theorem aggregate_spec {α : Type} (ms : List (List Char × α)) :
    ∀ e ∈ aggregate ms,
      e.count = (ms.filter (fun m => m.1 = e.key)).length ∧
        (ms.find? (fun m => m.1 = e.key)).map Prod.snd = some e.pl := by
  induction ms using List.reverseRecOn with
  | nil =>
    intro e he
    exact absurd he (by simp [aggregate])
  | append_singleton ms m ih =>
    intro e he
    rw [aggregate_append] at he
    unfold addEntry at he
    by_cases hk : (aggregate ms).any (fun x => x.key = m.1) = true
    · rw [if_pos hk] at he
      obtain ⟨e0, he0, heq⟩ := List.mem_map.mp he
      obtain ⟨hc0, hp0⟩ := ih e0 he0
      have hfind : ∃ v, ms.find? (fun x => decide (x.1 = e0.key)) = some v ∧ v.2 = e0.pl := by
        rcases hf : ms.find? (fun x => decide (x.1 = e0.key)) with _ | v
        · rw [hf] at hp0
          simp at hp0
        · rw [hf] at hp0
          exact ⟨v, hf, by simpa using hp0⟩
      obtain ⟨v, hv, hv2⟩ := hfind
      by_cases hek : e0.key = m.1
      · rw [if_pos hek] at heq
        subst heq
        have hdec : (decide (m.1 = e0.key)) = true := by simp [hek]
        constructor
        · simp only [List.filter_append, List.length_append, List.filter_singleton, hdec,
            cond_true, List.length_singleton]
          omega
        · rw [List.find?_append, hv]
          simpa using hv2
      · rw [if_neg hek] at heq
        subst heq
        have hdec : (decide (m.1 = e0.key)) = false := decide_eq_false (fun h => hek h.symm)
        constructor
        · simp only [List.filter_append, List.length_append, List.filter_singleton, hdec,
            cond_false, List.length_nil]
          omega
        · rw [List.find?_append, hv]
          simpa using hv2
    · rw [if_neg hk] at he
      rcases List.mem_append.mp he with he1 | he1
      · obtain ⟨hc0, hp0⟩ := ih e he1
        have hek : e.key ≠ m.1 := by
          intro hek
          apply hk
          rw [List.any_eq_true]
          exact ⟨e, he1, by simp [hek]⟩
        have hfind : ∃ v, ms.find? (fun x => decide (x.1 = e.key)) = some v ∧ v.2 = e.pl := by
          rcases hf : ms.find? (fun x => decide (x.1 = e.key)) with _ | v
          · rw [hf] at hp0
            simp at hp0
          · rw [hf] at hp0
            exact ⟨v, hf, by simpa using hp0⟩
        obtain ⟨v, hv, hv2⟩ := hfind
        have hdec : (decide (m.1 = e.key)) = false := decide_eq_false (fun h => hek h.symm)
        constructor
        · simp only [List.filter_append, List.length_append, List.filter_singleton, hdec,
            cond_false, List.length_nil]
          omega
        · rw [List.find?_append, hv]
          simpa using hv2
      · have heq : e = ⟨m.1, m.2, 1⟩ := by simpa using he1
        subst heq
        have hnotin : ∀ x ∈ ms, ¬(x.1 = m.1) := by
          intro x hx hx1
          apply hk
          have hmem : m.1 ∈ (aggregate ms).map Entry.key := by
            rw [aggregate_keys, mem_firstKeys]
            exact List.mem_map.mpr ⟨x, hx, hx1⟩
          exact (any_key_iff (aggregate ms) m.1).mpr hmem
        have h1 : List.filter (fun x => decide (x.1 = m.1)) ms = [] := by
          rw [List.filter_eq_nil_iff]
          intro x hx
          simpa using hnotin x hx
        have h2 : ms.find? (fun x => decide (x.1 = m.1)) = none := by
          rw [List.find?_eq_none]
          intro x hx
          simpa using hnotin x hx
        constructor
        · simp [List.filter_append, h1, List.filter_singleton]
        · rw [List.find?_append, h2]
          simp [List.find?_singleton]

theorem insertDescEntry_perm {α : Type} (x : Entry α) (l : List (Entry α)) :
    (insertDescEntry x l).Perm (x :: l) := by
  induction l with
  | nil => exact List.Perm.refl _
  | cons y ys ih =>
    unfold insertDescEntry
    by_cases h : y.count < x.count
    · rw [if_pos h]
    · rw [if_neg h]
      exact (ih.cons y).trans (List.Perm.swap x y ys)

theorem mem_insertDescEntry {α : Type} (b x : Entry α) (l : List (Entry α)) :
    b ∈ insertDescEntry x l ↔ b = x ∨ b ∈ l := by
  rw [(insertDescEntry_perm x l).mem_iff]
  simp

theorem sortEntriesDesc_perm_aux {α : Type} (l : List (Entry α)) :
    ∀ acc, (l.foldl (fun acc x => insertDescEntry x acc) acc).Perm (acc ++ l) := by
  induction l with
  | nil => simp
  | cons x l ih =>
    intro acc
    rw [List.foldl_cons]
    refine (ih (insertDescEntry x acc)).trans ?_
    refine (List.Perm.append_right l (insertDescEntry_perm x acc)).trans ?_
    exact List.perm_middle.symm

theorem sortEntriesDesc_perm {α : Type} (l : List (Entry α)) :
    (sortEntriesDesc l).Perm l := by
  simpa using sortEntriesDesc_perm_aux l []

theorem insertDescEntry_pairwise {α : Type} (x : Entry α) (l : List (Entry α))
    (h : l.Pairwise (fun a b => b.count ≤ a.count)) :
    (insertDescEntry x l).Pairwise (fun a b => b.count ≤ a.count) := by
  induction l with
  | nil => simp [insertDescEntry]
  | cons y ys ih =>
    rw [List.pairwise_cons] at h
    obtain ⟨hy, hys⟩ := h
    unfold insertDescEntry
    by_cases hc : y.count < x.count
    · rw [if_pos hc, List.pairwise_cons]
      constructor
      · intro b hb
        rcases List.mem_cons.mp hb with hb | hb
        · subst hb
          omega
        · have := hy b hb
          omega
      · rw [List.pairwise_cons]
        exact ⟨hy, hys⟩
    · rw [if_neg hc, List.pairwise_cons]
      constructor
      · intro b hb
        rcases (mem_insertDescEntry b x ys).mp hb with hb | hb
        · subst hb
          omega
        · exact hy b hb
      · exact ih hys

theorem sortEntriesDesc_pairwise_aux {α : Type} (l : List (Entry α)) :
    ∀ acc, acc.Pairwise (fun a b => b.count ≤ a.count) →
      (l.foldl (fun acc x => insertDescEntry x acc) acc).Pairwise
        (fun a b => b.count ≤ a.count) := by
  induction l with
  | nil => exact fun acc h => h
  | cons x l ih =>
    intro acc hacc
    rw [List.foldl_cons]
    exact ih _ (insertDescEntry_pairwise x acc hacc)

theorem sortEntriesDesc_pairwise {α : Type} (l : List (Entry α)) :
    (sortEntriesDesc l).Pairwise (fun a b => b.count ≤ a.count) :=
  sortEntriesDesc_pairwise_aux l [] List.Pairwise.nil

theorem insertDescEntry_filter {α : Type} (x : Entry α) (l : List (Entry α))
    (h : l.Pairwise (fun a b => b.count ≤ a.count)) (n : Nat) :
    (insertDescEntry x l).filter (fun e => e.count = n) =
      l.filter (fun e => e.count = n) ++ if x.count = n then [x] else [] := by
  induction l with
  | nil =>
    by_cases hx : x.count = n
    · simp [insertDescEntry, List.filter_singleton, hx]
    · simp [insertDescEntry, List.filter_singleton, hx]
  | cons y ys ih =>
    rw [List.pairwise_cons] at h
    obtain ⟨hy, hys⟩ := h
    unfold insertDescEntry
    by_cases hc : y.count < x.count
    · rw [if_pos hc]
      by_cases hx : x.count = n
      · have hemp : (y :: ys).filter (fun e => e.count = n) = [] := by
          rw [List.filter_eq_nil_iff]
          intro b hb
          rcases List.mem_cons.mp hb with hb | hb
          · subst hb
            simp only [decide_eq_true_eq]
            omega
          · have := hy b hb
            simp only [decide_eq_true_eq]
            omega
        rw [List.filter_cons]
        have hxd : (decide (x.count = n)) = true := by simp [hx]
        rw [hxd]
        simp only [if_true, hemp, hx]
        simp
      · have hxd : (decide (x.count = n)) = false := by simp [hx]
        rw [List.filter_cons, hxd]
        simp only [if_false, hx]
        simp
    · rw [if_neg hc]
      rw [List.filter_cons, List.filter_cons, ih hys]
      by_cases hyn : y.count = n
      · have hyd : (decide (y.count = n)) = true := by simp [hyn]
        rw [hyd]
        simp
      · have hyd : (decide (y.count = n)) = false := by simp [hyn]
        rw [hyd]
        simp

theorem sortEntriesDesc_filter_aux {α : Type} (l : List (Entry α)) :
    ∀ acc, acc.Pairwise (fun a b => b.count ≤ a.count) → ∀ n,
      (l.foldl (fun acc x => insertDescEntry x acc) acc).filter (fun e => e.count = n) =
        acc.filter (fun e => e.count = n) ++ l.filter (fun e => e.count = n) := by
  induction l with
  | nil => simp
  | cons x l ih =>
    intro acc hacc n
    rw [List.foldl_cons, ih _ (insertDescEntry_pairwise x acc hacc) n,
      insertDescEntry_filter x acc hacc n, List.filter_cons]
    by_cases hx : x.count = n
    · have hxd : (decide (x.count = n)) = true := by simp [hx]
      rw [hxd]
      simp [hx]
    · have hxd : (decide (x.count = n)) = false := by simp [hx]
      rw [hxd]
      simp [hx]

/-- Stability of the sort: for every count value, the entries carrying that
count appear in the sorted list exactly in their pre-sort order. -/
theorem sortEntriesDesc_filter {α : Type} (l : List (Entry α)) (n : Nat) :
    (sortEntriesDesc l).filter (fun e => e.count = n) =
      l.filter (fun e => e.count = n) := by
  simpa using sortEntriesDesc_filter_aux l [] List.Pairwise.nil n

theorem find?_map_pair {β : Type} (T : β) (ts : List Char) (l : List (List Char)) :
    (l.map (fun t => (t, T))).find? (fun m => m.1 = ts) =
      if ts ∈ l then some (ts, T) else none := by
  induction l with
  | nil => simp
  | cons a l ih =>
    rw [List.map_cons]
    by_cases ha : a = ts
    · subst ha
      rw [List.find?_cons_of_pos _ (by simp)]
      simp
    · rw [List.find?_cons_of_neg _ (by simp [ha]), ih]
      by_cases hts : ts ∈ l
      · rw [if_pos hts, if_pos (List.mem_cons_of_mem a hts)]
      · rw [if_neg hts, if_neg ?_]
        intro hmem
        rcases List.mem_cons.mp hmem with h | h
        · exact ha h.symm
        · exact hts h

theorem allMentions_find (l : List ScoredComment) (ts : List Char) :
    ((allMentions l).find? (fun m => m.1 = ts)).map Prod.snd =
      (l.find? (fun c => decide (ts ∈ findallTs c.text))).map ScoredComment.text := by
  induction l with
  | nil => simp [allMentions]
  | cons c l ih =>
    have hcons : allMentions (c :: l) =
        ((findallTs c.text).map (fun t => (t, c.text))) ++ allMentions l := by
      simp [allMentions]
    rw [hcons, List.find?_append, find?_map_pair]
    by_cases hts : ts ∈ findallTs c.text
    · rw [if_pos hts, List.find?_cons_of_pos _ (by simp [hts])]
      simp
    · rw [if_neg hts, List.find?_cons_of_neg _ (by simp [hts])]
      simpa using ih

theorem filter_map_pair_length {β : Type} (T : β) (ts : List Char) (f : List (List Char)) :
    ((f.map (fun t => (t, T))).filter (fun m => m.1 = ts)).length = f.count ts := by
  induction f with
  | nil => simp
  | cons a f ih =>
    rw [List.map_cons, List.filter_cons, List.count_cons]
    by_cases ha : a = ts <;> simp [ha, ih]

theorem allMentions_count (l : List ScoredComment) (ts : List Char) :
    ((allMentions l).filter (fun m => m.1 = ts)).length = mentionCount l ts := by
  induction l with
  | nil => simp [allMentions, mentionCount]
  | cons c l ih =>
    have hcons : allMentions (c :: l) =
        ((findallTs c.text).map (fun t => (t, c.text))) ++ allMentions l := by
      simp [allMentions]
    rw [hcons, List.filter_append, List.length_append, filter_map_pair_length, ih]
    simp [mentionCount]

/-- C3: for every positive bucket, the returned timestamp insights are at
most 5, sorted by mention count descending; each insight's count is the
total number of regex matches of its timestamp across all positive comments
(repeats within one comment included) and is at least 1; each insight's
representative comment is the text of the first comment in which that
timestamp string was matched; the timestamps are pairwise distinct
(aggregated by literal string); sorting is stable (per count value, entries
keep their pre-sort order) over the aggregate, whose keys are in first-seen
order — together: ties are won by the first-seen timestamp.  Finally, the
single comment "great drop at 12:34 and again at 12:34!" yields exactly one
insight for "12:34" with mention count 2. -/
theorem C3_timestamp_insights (l : List ScoredComment) :
    ((extract_insights l).top_timestamps_with_comments.length ≤ 5) ∧
      ((extract_insights l).top_timestamps_with_comments.Pairwise
        (fun a b => b.count ≤ a.count)) ∧
      (∀ e ∈ (extract_insights l).top_timestamps_with_comments,
        e.count = mentionCount l e.key ∧
          (l.find? (fun c => decide (e.key ∈ findallTs c.text))).map ScoredComment.text =
            some e.pl ∧
          1 ≤ e.count) ∧
      (∀ n, (sortEntriesDesc (aggregate (allMentions l))).filter (fun e => e.count = n) =
        (aggregate (allMentions l)).filter (fun e => e.count = n)) ∧
      ((aggregate (allMentions l)).map Entry.key = firstKeys ((allMentions l).map Prod.fst)) ∧
      (((extract_insights l).top_timestamps_with_comments.map Entry.key).Nodup) ∧
      ((extract_insights
          [⟨"great drop at 12:34 and again at 12:34!".toList, 9/10⟩]).top_timestamps_with_comments =
        [⟨"12:34".toList, "great drop at 12:34 and again at 12:34!".toList, 2⟩]) := by
  have hout : (extract_insights l).top_timestamps_with_comments =
      (sortEntriesDesc (aggregate (allMentions l))).take 5 := rfl
  refine ⟨?_, ?_, ?_, fun n => sortEntriesDesc_filter _ n, aggregate_keys _, ?_, by decide⟩
  · rw [hout, List.length_take]
    omega
  · rw [hout]
    exact List.Pairwise.sublist (List.take_sublist 5 _) (sortEntriesDesc_pairwise _)
  · intro e he
    rw [hout] at he
    have hsort : e ∈ sortEntriesDesc (aggregate (allMentions l)) :=
      List.take_subset 5 _ he
    have hagg : e ∈ aggregate (allMentions l) :=
      (sortEntriesDesc_perm _).mem_iff.mp hsort
    obtain ⟨hc, hp⟩ := aggregate_spec (allMentions l) e hagg
    refine ⟨by rw [hc, allMentions_count], by rw [← allMentions_find, hp], ?_⟩
    have hkey : e.key ∈ (allMentions l).map Prod.fst := by
      have h1 : e.key ∈ (aggregate (allMentions l)).map Entry.key :=
        List.mem_map.mpr ⟨e, hagg, rfl⟩
      rw [aggregate_keys, mem_firstKeys] at h1
      exact h1
    obtain ⟨m, hm, hm1⟩ := List.mem_map.mp hkey
    have hmf : m ∈ (allMentions l).filter (fun x => x.1 = e.key) :=
      List.mem_filter.mpr ⟨hm, by simp [hm1]⟩
    have hpos : 0 < ((allMentions l).filter (fun x => x.1 = e.key)).length :=
      List.length_pos.mpr (fun hnil => by simp [hnil] at hmf)
    omega
  · rw [hout]
    have h1 : ((sortEntriesDesc (aggregate (allMentions l))).map Entry.key).Nodup := by
      have hperm : ((sortEntriesDesc (aggregate (allMentions l))).map Entry.key).Perm
          ((aggregate (allMentions l)).map Entry.key) :=
        (sortEntriesDesc_perm _).map Entry.key
      rw [hperm.nodup_iff, aggregate_keys]
      exact firstKeys_nodup _
    exact ((List.take_sublist 5 _).map Entry.key).nodup h1

/-- Closed instance of `C3_timestamp_insights` at the scenario input. -/
theorem C3_timestamp_insights_witness :
    ((⟨"12:34".toList, "great drop at 12:34 and again at 12:34!".toList, 2⟩ :
        Entry (List Char)).count =
      mentionCount [⟨"great drop at 12:34 and again at 12:34!".toList, 9/10⟩]
        ("12:34".toList)) ∧
      (extract_insights
        [⟨"great drop at 12:34 and again at 12:34!".toList,
          9/10⟩]).top_timestamps_with_comments.length ≤ 5 := by
  have h := C3_timestamp_insights [⟨"great drop at 12:34 and again at 12:34!".toList, 9/10⟩]
  exact ⟨(h.2.2.1 _ (by decide)).1, h.1⟩

theorem wordRunsAux_chars (s : List Char) :
    ∀ cur, ∀ w ∈ wordRunsAux cur s, ∀ c ∈ w, c ∈ cur ∨ c ∈ s := by
  induction s with
  | nil =>
    intro cur w hw c hc
    unfold wordRunsAux at hw
    by_cases hcur : cur = []
    · simp [hcur] at hw
    · rw [if_neg hcur] at hw
      have : w = cur.reverse := by simpa using hw
      subst this
      exact Or.inl (List.mem_reverse.mp hc)
  | cons a s ih =>
    intro cur w hw c hc
    unfold wordRunsAux at hw
    by_cases hword : isWordChar a = true
    · rw [if_pos hword] at hw
      rcases ih (a :: cur) w hw c hc with h | h
      · rcases List.mem_cons.mp h with h | h
        · exact Or.inr (h ▸ List.mem_cons_self a s)
        · exact Or.inl h
      · exact Or.inr (List.mem_cons_of_mem a h)
    · rw [if_neg hword] at hw
      by_cases hcur : cur = []
      · rw [if_pos hcur] at hw
        rcases ih [] w hw c hc with h | h
        · simp at h
        · exact Or.inr (List.mem_cons_of_mem a h)
      · rw [if_neg hcur] at hw
        rcases List.mem_cons.mp hw with h | h
        · subst h
          exact Or.inl (List.mem_reverse.mp hc)
        · rcases ih [] w h c hc with h2 | h2
          · simp at h2
          · exact Or.inr (List.mem_cons_of_mem a h2)

theorem wordRuns_chars (s : List Char) (w : List Char) (hw : w ∈ wordRuns s) :
    ∀ c ∈ w, c ∈ s := by
  intro c hc
  rcases wordRunsAux_chars s [] w hw c hc with h | h
  · simp at h
  · exact h

/-- C6: for every positive bucket, the returned keyword list has at most 10
entries, sorted by frequency descending; every returned pair is a token of
the lower-cased concatenated positive text (its characters come from the
lowered text), of length at least 4 and not a stopword — `"video"` is in the
stopword set — and carries that token's exact frequency among the kept
tokens (at least 1); the keywords are pairwise distinct; sorting is stable
per frequency value over the counter, whose keys are in first-seen order —
together: ties are broken by first-encountered order. -/
theorem C6_keyword_extraction (l : List ScoredComment) :
    ((extract_insights l).top_keywords.length ≤ 10) ∧
      ((extract_insights l).top_keywords.Pairwise (fun a b => b.2 ≤ a.2)) ∧
      (∀ p ∈ (extract_insights l).top_keywords,
        4 ≤ p.1.length ∧ p.1 ∉ stopwords ∧ p.1 ∈ meaningfulWords l ∧
          (∀ c ∈ p.1, c ∈ (allPositiveText l).map Char.toLower) ∧
          p.2 = (meaningfulWords l).count p.1 ∧ 1 ≤ p.2) ∧
      ("video".toList ∈ stopwords) ∧
      (∀ n,
        (sortEntriesDesc (aggregate ((meaningfulWords l).map (fun w => (w, ()))))).filter
            (fun e => e.count = n) =
          (aggregate ((meaningfulWords l).map (fun w => (w, ())))).filter
            (fun e => e.count = n)) ∧
      ((aggregate ((meaningfulWords l).map (fun w => (w, ())))).map Entry.key =
        firstKeys (meaningfulWords l)) ∧
      (((extract_insights l).top_keywords.map Prod.fst).Nodup) := by
  have hout : (extract_insights l).top_keywords =
      ((sortEntriesDesc (aggregate ((meaningfulWords l).map (fun w => (w, ()))))).take 10).map
        (fun e => (e.key, e.count)) := rfl
  have hkeys : (aggregate ((meaningfulWords l).map (fun w => (w, ())))).map Entry.key =
      firstKeys (meaningfulWords l) := by
    rw [aggregate_keys, List.map_map]
    have : (Prod.fst ∘ fun w : List Char => (w, ())) = fun w => w := rfl
    rw [this, List.map_id']
  refine ⟨?_, ?_, ?_, by decide, fun n => sortEntriesDesc_filter _ n, hkeys, ?_⟩
  · rw [hout, List.length_map, List.length_take]
    omega
  · rw [hout, List.pairwise_map]
    exact List.Pairwise.sublist (List.take_sublist 10 _) (sortEntriesDesc_pairwise _)
  · intro p hp
    rw [hout] at hp
    obtain ⟨e, he, hpe⟩ := List.mem_map.mp hp
    have hsort : e ∈ sortEntriesDesc (aggregate ((meaningfulWords l).map (fun w => (w, ())))) :=
      List.take_subset 10 _ he
    have hagg : e ∈ aggregate ((meaningfulWords l).map (fun w => (w, ()))) :=
      (sortEntriesDesc_perm _).mem_iff.mp hsort
    obtain ⟨hc, _⟩ := aggregate_spec _ e hagg
    have hkmem : e.key ∈ meaningfulWords l := by
      have h1 : e.key ∈ (aggregate ((meaningfulWords l).map (fun w => (w, ())))).map Entry.key :=
        List.mem_map.mpr ⟨e, hagg, rfl⟩
      rw [hkeys, mem_firstKeys] at h1
      exact h1
    have hcount : e.count = (meaningfulWords l).count e.key := by
      rw [hc, filter_map_pair_length]
    have hw4 : 4 ≤ e.key.length := by
      have := (List.mem_filter.mp ((List.mem_filter.mp hkmem).1)).2
      simpa using this
    have hwstop : e.key ∉ stopwords := by
      have := (List.mem_filter.mp hkmem).2
      simpa using this
    have hrun : e.key ∈ wordRuns ((allPositiveText l).map Char.toLower) :=
      (List.mem_filter.mp ((List.mem_filter.mp hkmem).1)).1
    subst hpe
    refine ⟨hw4, hwstop, hkmem, wordRuns_chars _ _ hrun, hcount, ?_⟩
    rw [hcount]
    exact List.count_pos_iff.mpr hkmem
  · rw [hout, List.map_map]
    have hcomp : ((fun p : List Char × Nat => p.1) ∘ fun e : Entry Unit => (e.key, e.count)) =
        Entry.key := rfl
    rw [hcomp]
    have h1 : ((sortEntriesDesc (aggregate ((meaningfulWords l).map (fun w => (w, ()))))).map
        Entry.key).Nodup := by
      have hperm := (sortEntriesDesc_perm
        (aggregate ((meaningfulWords l).map (fun w => (w, ()))))).map Entry.key
      rw [hperm.nodup_iff, hkeys]
      exact firstKeys_nodup _
    exact ((List.take_sublist 10 _).map Entry.key).nodup h1

/-- Closed instance of `C6_keyword_extraction`: one comment whose kept
tokens are "insane" (twice, case-folded) and "techno". -/
theorem C6_keyword_extraction_witness :
    (("insane".toList, 2) :
        List Char × Nat).2 =
      (meaningfulWords [⟨"Insane techno, insane!".toList, 9/10⟩]).count ("insane".toList) ∧
      (extract_insights [⟨"Insane techno, insane!".toList, 9/10⟩]).top_keywords.length ≤ 10 := by
  have h := C6_keyword_extraction [⟨"Insane techno, insane!".toList, 9/10⟩]
  exact ⟨(h.2.2.1 ("insane".toList, 2) (by decide)).2.2.2.2.1, h.1⟩

theorem negFold_spec (scores : List ℚ) : ∀ b : ScoreBins,
    (scores.foldl negStep b).bin_neg_low =
        b.bin_neg_low + scores.countP (fun s => -1 ≤ s ∧ s < -(6/10)) ∧
      (scores.foldl negStep b).bin_neg_high =
        b.bin_neg_high + scores.countP (fun s => -(6/10) ≤ s ∧ s < -(2/10)) ∧
      (scores.foldl negStep b).bin_neutral = b.bin_neutral ∧
      (scores.foldl negStep b).bin_pos_low = b.bin_pos_low ∧
      (scores.foldl negStep b).bin_pos_high = b.bin_pos_high := by
  induction scores with
  | nil => simp
  | cons s scores ih =>
    intro b
    rw [List.foldl_cons]
    obtain ⟨i1, i2, i3, i4, i5⟩ := ih (negStep b s)
    rw [List.countP_cons, List.countP_cons]
    by_cases h1 : -1 ≤ s ∧ s < -(6/10)
    · have h2 : ¬(-(6/10) ≤ s ∧ s < -(2/10)) := by
        rintro ⟨ha, hb⟩
        linarith [h1.2]
      have hstep : negStep b s = { b with bin_neg_low := b.bin_neg_low + 1 } := by
        simp [negStep, h1]
      refine ⟨?_, ?_, ?_, ?_, ?_⟩
      · rw [i1, hstep]
        simp [h1]
        omega
      · rw [i2, hstep]
        simp [h2]
      · rw [i3, hstep]
      · rw [i4, hstep]
      · rw [i5, hstep]
    · by_cases h2 : -(6/10) ≤ s ∧ s < -(2/10)
      · have hstep : negStep b s = { b with bin_neg_high := b.bin_neg_high + 1 } := by
          simp [negStep, h1, h2]
        refine ⟨?_, ?_, ?_, ?_, ?_⟩
        · rw [i1, hstep]
          simp [h1]
        · rw [i2, hstep]
          simp [h2]
          omega
        · rw [i3, hstep]
        · rw [i4, hstep]
        · rw [i5, hstep]
      · have hstep : negStep b s = b := by
          simp [negStep, h1, h2]
        refine ⟨?_, ?_, ?_, ?_, ?_⟩
        · rw [i1, hstep]
          simp [h1]
        · rw [i2, hstep]
          simp [h2]
        · rw [i3, hstep]
        · rw [i4, hstep]
        · rw [i5, hstep]

theorem posFold_spec (scores : List ℚ) : ∀ b : ScoreBins,
    (scores.foldl posStep b).bin_pos_low =
        b.bin_pos_low + scores.countP (fun s => 2/10 ≤ s ∧ s < 6/10) ∧
      (scores.foldl posStep b).bin_pos_high =
        b.bin_pos_high + scores.countP (fun s => 6/10 ≤ s ∧ s ≤ 1) ∧
      (scores.foldl posStep b).bin_neutral = b.bin_neutral ∧
      (scores.foldl posStep b).bin_neg_low = b.bin_neg_low ∧
      (scores.foldl posStep b).bin_neg_high = b.bin_neg_high := by
  induction scores with
  | nil => simp
  | cons s scores ih =>
    intro b
    rw [List.foldl_cons]
    obtain ⟨i1, i2, i3, i4, i5⟩ := ih (posStep b s)
    rw [List.countP_cons, List.countP_cons]
    by_cases h1 : 2/10 ≤ s ∧ s < 6/10
    · have h2 : ¬(6/10 ≤ s ∧ s ≤ 1) := by
        rintro ⟨ha, hb⟩
        linarith [h1.2]
      have hstep : posStep b s = { b with bin_pos_low := b.bin_pos_low + 1 } := by
        simp [posStep, h1]
      refine ⟨?_, ?_, ?_, ?_, ?_⟩
      · rw [i1, hstep]
        simp [h1]
        omega
      · rw [i2, hstep]
        simp [h2]
      · rw [i3, hstep]
      · rw [i4, hstep]
      · rw [i5, hstep]
    · by_cases h2 : 6/10 ≤ s ∧ s ≤ 1
      · have hstep : posStep b s = { b with bin_pos_high := b.bin_pos_high + 1 } := by
          simp [posStep, h1, h2]
        refine ⟨?_, ?_, ?_, ?_, ?_⟩
        · rw [i1, hstep]
          simp [h1]
        · rw [i2, hstep]
          simp [h2]
          omega
        · rw [i3, hstep]
        · rw [i4, hstep]
        · rw [i5, hstep]
      · have hstep : posStep b s = b := by
          simp [posStep, h1, h2]
        refine ⟨?_, ?_, ?_, ?_, ?_⟩
        · rw [i1, hstep]
          simp [h1]
        · rw [i2, hstep]
          simp [h2]
        · rw [i3, hstep]
        · rw [i4, hstep]
        · rw [i5, hstep]

theorem countP_three {α : Type} (l : List α) (p q r : α → Bool)
    (h : ∀ x ∈ l,
      (p x = true ∧ q x = false ∧ r x = false) ∨
        (p x = false ∧ q x = true ∧ r x = false) ∨
        (p x = false ∧ q x = false ∧ r x = true)) :
    l.countP p + l.countP q + l.countP r = l.length := by
  induction l with
  | nil => simp
  | cons x l ih =>
    rw [List.countP_cons, List.countP_cons, List.countP_cons, List.length_cons]
    have hx := h x (List.mem_cons_self x l)
    have hih := ih (fun y hy => h y (List.mem_cons_of_mem x hy))
    rcases hx with ⟨h1, h2, h3⟩ | ⟨h1, h2, h3⟩ | ⟨h1, h2, h3⟩ <;>
      rw [h1, h2, h3] <;> simp <;> omega

/-- C2 (counterexample): a comment with compound score 0.1 is in the
positive bucket (0.1 ≥ 0.05) but falls into none of the four non-neutral
histogram bins, and on the one-comment run the five bin counts sum to 0
while the total comment count is 1. -/
theorem C2_histogram_counterexample :
    (classify (1/10) = Sentiment.positive) ∧
      (¬((-1 ≤ (1:ℚ)/10 ∧ (1:ℚ)/10 < -(6/10)) ∨
        (-(6/10) ≤ (1:ℚ)/10 ∧ (1:ℚ)/10 < -(2/10)) ∨
        ((2:ℚ)/10 ≤ 1/10 ∧ (1:ℚ)/10 < 6/10) ∨
        ((6:ℚ)/10 ≤ 1/10 ∧ (1:ℚ)/10 ≤ 1))) ∧
      ((score_bins ⟨[⟨"ok".toList, 1/10⟩], [], []⟩).bin_neg_low +
        (score_bins ⟨[⟨"ok".toList, 1/10⟩], [], []⟩).bin_neg_high +
        (score_bins ⟨[⟨"ok".toList, 1/10⟩], [], []⟩).bin_neutral +
        (score_bins ⟨[⟨"ok".toList, 1/10⟩], [], []⟩).bin_pos_low +
        (score_bins ⟨[⟨"ok".toList, 1/10⟩], [], []⟩).bin_pos_high = 0) ∧
      ((⟨[⟨"ok".toList, 1/10⟩], [], []⟩ : AnalysisResults).positive_comments.length +
        (⟨[⟨"ok".toList, 1/10⟩], [], []⟩ : AnalysisResults).negative_comments.length +
        (⟨[⟨"ok".toList, 1/10⟩], [], []⟩ : AnalysisResults).neutral_comments.length = 1) := by
  have hb : score_bins ⟨[⟨"ok".toList, 1/10⟩], [], []⟩ = ⟨0, 0, 0, 0, 0⟩ := by
    show posStep ⟨0, 0, 0, 0, 0⟩ (1/10) = ⟨0, 0, 0, 0, 0⟩
    unfold posStep
    rw [if_neg, if_neg]
    · rintro ⟨ha, _⟩
      norm_num at ha
    · rintro ⟨ha, _⟩
      norm_num at ha
  refine ⟨by rw [classify_pos_iff]; norm_num, ?_, by rw [hb]; rfl, by simp⟩
  rintro (⟨_, hb2⟩ | ⟨ha, _⟩ | ⟨ha, _⟩ | ⟨ha, _⟩) <;> norm_num at *

/-- C2 (amended): every positive-bucket score of at least 0.2 falls into
exactly one of the two positive bins and every negative-bucket score below
-0.2 falls into exactly one of the two negative bins (half-open boundaries,
the final bin closed); the neutral bin carries the full neutral-bucket
count; but positive scores in [0.05, 0.2) and negative scores in
[-0.2, -0.05] fall into no bin, so the five bin counts sum to the total
comment count minus the number of such uncovered scores (stated
additively). -/
theorem C2_histogram_amended (results : AnalysisResults)
    (hpos : ∀ c ∈ results.positive_comments, 5/100 ≤ c.score ∧ c.score ≤ 1)
    (hneg : ∀ c ∈ results.negative_comments, -1 ≤ c.score ∧ c.score ≤ -(5/100)) :
    ((score_bins results).bin_neutral = results.neutral_comments.length) ∧
      (∀ c ∈ results.positive_comments, 2/10 ≤ c.score →
        ((2/10 ≤ c.score ∧ c.score < 6/10) ∧ ¬(6/10 ≤ c.score ∧ c.score ≤ 1)) ∨
          (¬(2/10 ≤ c.score ∧ c.score < 6/10) ∧ (6/10 ≤ c.score ∧ c.score ≤ 1))) ∧
      (∀ c ∈ results.negative_comments, c.score < -(2/10) →
        ((-1 ≤ c.score ∧ c.score < -(6/10)) ∧ ¬(-(6/10) ≤ c.score ∧ c.score < -(2/10))) ∨
          (¬(-1 ≤ c.score ∧ c.score < -(6/10)) ∧ (-(6/10) ≤ c.score ∧ c.score < -(2/10)))) ∧
      ((score_bins results).bin_neg_low + (score_bins results).bin_neg_high +
          (score_bins results).bin_neutral + (score_bins results).bin_pos_low +
          (score_bins results).bin_pos_high +
          results.positive_comments.countP (fun c => c.score < 2/10) +
          results.negative_comments.countP (fun c => -(2/10) ≤ c.score) =
        results.positive_comments.length + results.negative_comments.length +
          results.neutral_comments.length) := by
  obtain ⟨n1, n2, n3, n4, n5⟩ :=
    negFold_spec (results.negative_comments.map ScoredComment.score)
      ⟨0, 0, results.neutral_comments.length, 0, 0⟩
  obtain ⟨p1, p2, p3, p4, p5⟩ :=
    posFold_spec (results.positive_comments.map ScoredComment.score)
      ((results.negative_comments.map ScoredComment.score).foldl negStep
        ⟨0, 0, results.neutral_comments.length, 0, 0⟩)
  have hbins : score_bins results =
      (results.positive_comments.map ScoredComment.score).foldl posStep
        ((results.negative_comments.map ScoredComment.score).foldl negStep
          ⟨0, 0, results.neutral_comments.length, 0, 0⟩) := rfl
  refine ⟨?_, ?_, ?_, ?_⟩
  · rw [hbins, p3, n3]
  · intro c hc h02
    obtain ⟨hlo, hhi⟩ := hpos c hc
    by_cases h6 : 6/10 ≤ c.score
    · refine Or.inr ⟨?_, h6, hhi⟩
      rintro ⟨_, hb⟩
      linarith
    · refine Or.inl ⟨⟨h02, by linarith⟩, ?_⟩
      rintro ⟨ha, _⟩
      exact h6 ha
  · intro c hc h02
    obtain ⟨hlo, hhi⟩ := hneg c hc
    by_cases h6 : c.score < -(6/10)
    · refine Or.inl ⟨⟨hlo, h6⟩, ?_⟩
      rintro ⟨ha, _⟩
      linarith
    · refine Or.inr ⟨?_, ⟨by linarith, h02⟩⟩
      rintro ⟨_, hb⟩
      exact h6 hb
  · rw [hbins, p1, p2, p3, p4, p5, n1, n2, n3, n4, n5]
    dsimp only
    rw [List.countP_map, List.countP_map, List.countP_map, List.countP_map]
    have hposSum :
        results.positive_comments.countP
            ((fun s => decide (2/10 ≤ s ∧ s < 6/10)) ∘ ScoredComment.score) +
          results.positive_comments.countP
            ((fun s => decide (6/10 ≤ s ∧ s ≤ 1)) ∘ ScoredComment.score) +
          results.positive_comments.countP (fun c => decide (c.score < 2/10)) =
          results.positive_comments.length := by
      apply countP_three
      intro c hc
      obtain ⟨hlo, hhi⟩ := hpos c hc
      by_cases ha : c.score < 2/10
      · refine Or.inr (Or.inr ⟨?_, ?_, ?_⟩)
        · exact decide_eq_false (by rintro ⟨h1, h2⟩; linarith)
        · exact decide_eq_false (by rintro ⟨h1, h2⟩; linarith)
        · exact decide_eq_true ha
      · by_cases hb2 : c.score < 6/10
        · refine Or.inl ⟨?_, ?_, ?_⟩
          · exact decide_eq_true ⟨by linarith, hb2⟩
          · exact decide_eq_false (by rintro ⟨h1, h2⟩; linarith)
          · exact decide_eq_false ha
        · refine Or.inr (Or.inl ⟨?_, ?_, ?_⟩)
          · exact decide_eq_false (by rintro ⟨h1, h2⟩; linarith)
          · exact decide_eq_true ⟨by linarith, hhi⟩
          · exact decide_eq_false ha
    have hnegSum :
        results.negative_comments.countP
            ((fun s => decide (-1 ≤ s ∧ s < -(6/10))) ∘ ScoredComment.score) +
          results.negative_comments.countP
            ((fun s => decide (-(6/10) ≤ s ∧ s < -(2/10))) ∘ ScoredComment.score) +
          results.negative_comments.countP (fun c => decide (-(2/10) ≤ c.score)) =
          results.negative_comments.length := by
      apply countP_three
      intro c hc
      obtain ⟨hlo, hhi⟩ := hneg c hc
      by_cases ha : -(2/10) ≤ c.score
      · refine Or.inr (Or.inr ⟨?_, ?_, ?_⟩)
        · exact decide_eq_false (by rintro ⟨h1, h2⟩; linarith)
        · exact decide_eq_false (by rintro ⟨h1, h2⟩; linarith)
        · exact decide_eq_true ha
      · by_cases hb2 : c.score < -(6/10)
        · refine Or.inl ⟨?_, ?_, ?_⟩
          · exact decide_eq_true ⟨hlo, hb2⟩
          · exact decide_eq_false (by rintro ⟨h1, h2⟩; linarith)
          · exact decide_eq_false ha
        · refine Or.inr (Or.inl ⟨?_, ?_, ?_⟩)
          · exact decide_eq_false (by rintro ⟨h1, h2⟩; linarith)
          · exact decide_eq_true ⟨by linarith, by linarith⟩
          · exact decide_eq_false ha
    omega

/-- Closed instance of `C2_histogram_amended`: one positive comment scoring
0.6 lands in the final bin and the five counts sum to the total. -/
theorem C2_histogram_amended_witness :
    (score_bins ⟨[⟨"wow".toList, 6/10⟩], [], []⟩).bin_neg_low +
        (score_bins ⟨[⟨"wow".toList, 6/10⟩], [], []⟩).bin_neg_high +
        (score_bins ⟨[⟨"wow".toList, 6/10⟩], [], []⟩).bin_neutral +
        (score_bins ⟨[⟨"wow".toList, 6/10⟩], [], []⟩).bin_pos_low +
        (score_bins ⟨[⟨"wow".toList, 6/10⟩], [], []⟩).bin_pos_high +
        (⟨[⟨"wow".toList, 6/10⟩], [], []⟩ : AnalysisResults).positive_comments.countP
          (fun c => c.score < 2/10) +
        (⟨[⟨"wow".toList, 6/10⟩], [], []⟩ : AnalysisResults).negative_comments.countP
          (fun c => -(2/10) ≤ c.score) =
      (⟨[⟨"wow".toList, 6/10⟩], [], []⟩ : AnalysisResults).positive_comments.length +
        (⟨[⟨"wow".toList, 6/10⟩], [], []⟩ : AnalysisResults).negative_comments.length +
        (⟨[⟨"wow".toList, 6/10⟩], [], []⟩ : AnalysisResults).neutral_comments.length :=
  (C2_histogram_amended ⟨[⟨"wow".toList, 6/10⟩], [], []⟩
    (by
      intro c hc
      have hce : c = ⟨"wow".toList, 6/10⟩ := by simpa using hc
      rw [hce]
      constructor <;> norm_num)
    (by
      intro c hc
      simp at hc)).2.2.2

/-! ### Helper lemmas: the timestamp scanner -/

theorem scan_noDigits (f : Nat) (s : List Char) (pw : Bool)
    (h : ∀ c ∈ s, c.isDigit = false) : scanTsF f s pw = [] := by
  induction f generalizing s pw with
  | zero => cases s <;> rfl
  | succ f ih =>
    cases s with
    | nil => rfl
    | cons c rest =>
      unfold scanTsF
      rw [h c (List.mem_cons_self c rest)]
      simp only [Bool.and_false, Bool.false_eq_true, if_false]
      exact ih rest (isWordChar c) (fun x hx => h x (List.mem_cons_of_mem c hx))

theorem scan_pass (pre : List Char) (hnd : ∀ c ∈ pre, c.isDigit = false) :
    ∀ f rest pw, (pre ++ rest).length ≤ f →
      scanTsF f (pre ++ rest) pw =
        scanTsF (f - pre.length) rest (pre.foldl (fun _ c => isWordChar c) pw) := by
  induction pre with
  | nil =>
    intro f rest pw _
    simp
  | cons c pre ih =>
    intro f rest pw hf
    rcases f with _ | fn
    · simp at hf
    · have hf2 : (pre ++ rest).length ≤ fn := by
        simp only [List.cons_append, List.length_cons] at hf
        omega
      rw [List.cons_append]
      unfold scanTsF
      rw [hnd c (List.mem_cons_self c pre)]
      simp only [Bool.and_false, Bool.false_eq_true, if_false]
      rw [ih (fun x hx => hnd x (List.mem_cons_of_mem c hx)) fn rest (isWordChar c) hf2]
      have hfe : fn - pre.length = fn + 1 - (pre.length + 1) := by omega
      simp only [List.length_cons, List.foldl_cons, hfe]
      conv_lhs => unfold scanTsF

theorem foldl_isWordChar_last (pre : List Char) (p : Char) (hp : pre.getLast? = some p) :
    ∀ pw, pre.foldl (fun _ c => isWordChar c) pw = isWordChar p := by
  induction pre with
  | nil => simp at hp
  | cons c pre ih =>
    intro pw
    rw [List.foldl_cons]
    cases hpre : pre with
    | nil =>
      subst hpre
      simp at hp
      subst hp
      rfl
    | cons d pre2 =>
      rw [← hpre]
      have hlast : pre.getLast? = some p := by
        rw [hpre]
        rw [hpre] at hp
        rwa [List.getLast?_cons_cons] at hp
      exact ih hlast (isWordChar c)

theorem matchTs_hms (hour : List Char) (m1 m2 s1 s2 : Char) (post : List Char)
    (hlen : hour.length = 1 ∨ hour.length = 2)
    (hdig : ∀ c ∈ hour, c.isDigit = true)
    (hm1 : m1.isDigit = true) (hm2 : m2.isDigit = true)
    (hs1 : s1.isDigit = true) (hs2 : s2.isDigit = true)
    (hwb : wbAfter post = true) :
    matchTs ((hour ++ ':' :: m1 :: m2 :: ':' :: s1 :: [s2]) ++ post) =
      some (hour ++ ':' :: m1 :: m2 :: ':' :: s1 :: [s2], post) := by
  rcases hlen with h1 | h2
  · obtain ⟨a, ha⟩ := List.length_eq_one.mp h1
    subst ha
    have hda := hdig a (by simp)
    simp [matchTs, matchTail, hda, hm1, hm2, hs1, hs2, hwb]
  · obtain ⟨a, b, hab⟩ := List.length_eq_two.mp h2
    subst hab
    have hda := hdig a (by simp)
    have hdb := hdig b (by simp)
    simp [matchTs, matchTail, hda, hdb, hm1, hm2, hs1, hs2, hwb]

theorem findallTs_hms (hour pre post : List Char) (m1 m2 s1 s2 : Char)
    (hlen : hour.length = 1 ∨ hour.length = 2)
    (hdig : ∀ c ∈ hour, c.isDigit = true)
    (hm1 : m1.isDigit = true) (hm2 : m2.isDigit = true)
    (hs1 : s1.isDigit = true) (hs2 : s2.isDigit = true)
    (hpreD : ∀ c ∈ pre, c.isDigit = false)
    (hpreB : boundaryLeft pre)
    (hpostD : ∀ c ∈ post, c.isDigit = false)
    (hpostB : boundaryRight post) :
    findallTs (pre ++ (hour ++ ':' :: m1 :: m2 :: ':' :: s1 :: [s2]) ++ post) =
      [hour ++ ':' :: m1 :: m2 :: ':' :: s1 :: [s2]] := by
  set t := hour ++ ':' :: m1 :: m2 :: ':' :: s1 :: [s2] with ht
  have hwb : wbAfter post = true := by
    rcases hpostB with h | ⟨p, hp, hpw⟩
    · subst h
      rfl
    · cases post with
      | nil => rfl
      | cons d post2 =>
        simp at hp
        subst hp
        simp [wbAfter, hpw]
  have hpw : pre.foldl (fun _ c => isWordChar c) false = false := by
    rcases hpreB with h | ⟨p, hp, hpw⟩
    · subst h
      rfl
    · rw [foldl_isWordChar_last pre p hp false, hpw]
  have hmatch := matchTs_hms hour m1 m2 s1 s2 post hlen hdig hm1 hm2 hs1 hs2 hwb
  have hassoc : pre ++ t ++ post = pre ++ (t ++ post) := by
    rw [List.append_assoc]
  rw [findallTs, hassoc,
    scan_pass pre hpreD _ (t ++ post) false (by rw [← hassoc]),
    hpw]
  have hfuel : (pre ++ (t ++ post)).length - pre.length = (t ++ post).length := by
    simp
  rw [hfuel]
  have hthead : ∃ d trest, t ++ post = d :: trest ∧ d.isDigit = true ∧
      trest.length + 1 = (t ++ post).length := by
    rcases hlen with h1 | h2
    · obtain ⟨a, ha⟩ := List.length_eq_one.mp h1
      refine ⟨a, ':' :: m1 :: m2 :: ':' :: s1 :: s2 :: post, by simp [ht, ha], ?_,
        by simp [ht, ha]⟩
      exact hdig a (by simp [ha])
    · obtain ⟨a, b, hab⟩ := List.length_eq_two.mp h2
      refine ⟨a, b :: ':' :: m1 :: m2 :: ':' :: s1 :: s2 :: post, by simp [ht, hab], ?_,
        by simp [ht, hab]⟩
      exact hdig a (by simp [hab])
  obtain ⟨d, trest, htp, hd, hlen2⟩ := hthead
  rw [htp, List.length_cons]
  unfold scanTsF
  rw [hd]
  simp only [Bool.not_false, Bool.true_and, if_true]
  rw [← htp, hmatch]
  have hscanpost : scanTsF trest.length post true = [] := scan_noDigits _ post true hpostD
  simp [hscanpost, ht]

/-- C10 (counterexample): the text "1:23:45:11" contains the word-boundary
delimited hh:mm:ss occurrence "23:45:11" (preceded by the non-word "1:"),
yet the scan, working left to right, matches the overlapping "1:23:45"
first and resumes after it, so the occurrence "23:45:11" is recorded zero
times — not "exactly one mention per occurrence carrying the full
three-part string". -/
theorem C10_hms_counterexample :
    containsHMS ("1:23:45:11".toList) ("23:45:11".toList) ∧
      mentionCount [⟨"1:23:45:11".toList, 1/2⟩] ("23:45:11".toList) = 0 ∧
      ((extract_insights [⟨"1:23:45:11".toList, 1/2⟩]).top_timestamps_with_comments.map
        Entry.key = ["1:23:45".toList]) := by
  refine ⟨⟨?_, "1:".toList, [], by decide, ?_, ?_⟩, by decide, by decide⟩
  · exact ⟨"23".toList, '4', '5', '1', '1', Or.inr (by decide), by decide, by decide,
      by decide, by decide, by decide, by decide⟩
  · exact Or.inr ⟨':', by decide, by decide⟩
  · exact Or.inl rfl

/-- C10 (amended): for every positive comment whose text contains a
word-boundary delimited hh:mm:ss timestamp whose surrounding text contains
no digits (so that no overlapping digit-colon sequence can preempt the
match), `extract_insights` records exactly one mention carrying the full
three-part string, and the trailing mm:ss substring of that occurrence is
never recorded as a separate mention.  (When the surroundings do contain
digit-colon chains, the left-to-right scan may record an overlapping
earlier match instead — see the counterexample.) -/
theorem C10_hms_amended (hour pre post : List Char) (m1 m2 s1 s2 : Char) (q : ℚ)
    (hlen : hour.length = 1 ∨ hour.length = 2)
    (hdig : ∀ c ∈ hour, c.isDigit = true)
    (hm1 : m1.isDigit = true) (hm2 : m2.isDigit = true)
    (hs1 : s1.isDigit = true) (hs2 : s2.isDigit = true)
    (hpreD : ∀ c ∈ pre, c.isDigit = false) (hpreB : boundaryLeft pre)
    (hpostD : ∀ c ∈ post, c.isDigit = false) (hpostB : boundaryRight post) :
    (findallTs (pre ++ (hour ++ ':' :: m1 :: m2 :: ':' :: s1 :: [s2]) ++ post) =
        [hour ++ ':' :: m1 :: m2 :: ':' :: s1 :: [s2]]) ∧
      ((extract_insights
          [⟨pre ++ (hour ++ ':' :: m1 :: m2 :: ':' :: s1 :: [s2]) ++ post,
            q⟩]).top_timestamps_with_comments =
        [⟨hour ++ ':' :: m1 :: m2 :: ':' :: s1 :: [s2],
          pre ++ (hour ++ ':' :: m1 :: m2 :: ':' :: s1 :: [s2]) ++ post, 1⟩]) ∧
      ((m1 :: m2 :: ':' :: s1 :: [s2]) ∉
        ((extract_insights
          [⟨pre ++ (hour ++ ':' :: m1 :: m2 :: ':' :: s1 :: [s2]) ++ post,
            q⟩]).top_timestamps_with_comments.map Entry.key)) := by
  have hfa := findallTs_hms hour pre post m1 m2 s1 s2 hlen hdig hm1 hm2 hs1 hs2
    hpreD hpreB hpostD hpostB
  have hext : (extract_insights
      [⟨pre ++ (hour ++ ':' :: m1 :: m2 :: ':' :: s1 :: [s2]) ++ post,
        q⟩]).top_timestamps_with_comments =
      [⟨hour ++ ':' :: m1 :: m2 :: ':' :: s1 :: [s2],
        pre ++ (hour ++ ':' :: m1 :: m2 :: ':' :: s1 :: [s2]) ++ post, 1⟩] := by
    have hm : allMentions
        [⟨pre ++ (hour ++ ':' :: m1 :: m2 :: ':' :: s1 :: [s2]) ++ post, q⟩] =
        [(hour ++ ':' :: m1 :: m2 :: ':' :: s1 :: [s2],
          pre ++ (hour ++ ':' :: m1 :: m2 :: ':' :: s1 :: [s2]) ++ post)] := by
      simp only [allMentions, List.flatMap_cons, List.flatMap_nil, List.append_nil]
      rw [hfa]
      simp
    show (sortEntriesDesc (aggregate (allMentions _))).take 5 = _
    rw [hm]
    simp [aggregate, addEntry, sortEntriesDesc, insertDescEntry]
  refine ⟨hfa, hext, ?_⟩
  rw [hext]
  simp only [List.map_cons, List.map_nil, List.mem_singleton]
  intro heq
  have hlength := congrArg List.length heq
  simp at hlength

/-- Closed instance of `C10_hms_amended`: the comment "at 1:23:45!" yields
the single full-string match "1:23:45". -/
theorem C10_hms_amended_witness :
    findallTs ("at ".toList ++ ("1".toList ++ ':' :: '2' :: '3' :: ':' :: '4' :: ['5']) ++
        "!".toList) = ["1".toList ++ ':' :: '2' :: '3' :: ':' :: '4' :: ['5']] :=
  (C10_hms_amended ("1".toList) ("at ".toList) ("!".toList) '2' '3' '4' '5' (1/2)
    (Or.inl (by decide)) (by decide) (by decide) (by decide) (by decide) (by decide)
    (by decide) (Or.inr ⟨' ', by decide, by decide⟩) (by decide)
    (Or.inr ⟨'!', by decide, by decide⟩)).1

/-! ### Helper lemmas: the JSON codec -/

theorem char_valid_range (c : Char) :
    c.toNat < 1114112 ∧ ¬(55296 ≤ c.toNat ∧ c.toNat < 57344) := by
  have h := c.valid
  have he : c.toNat = c.val.toNat := rfl
  rw [he]
  rcases h with h | ⟨h1, h2⟩
  · constructor
    · omega
    · omega
  · constructor
    · omega
    · omega

theorem hexVal_hexDigitChar (d : Nat) (hd : d < 16) :
    hexVal (hexDigitChar d) = some d := by
  interval_cases d <;> decide

theorem parseHex4_digits (n : Nat) (hn : n < 65536) (rest : List Char) :
    parseHex4 (hexDigitChar (n / 4096 % 16) :: hexDigitChar (n / 256 % 16) ::
      hexDigitChar (n / 16 % 16) :: hexDigitChar (n % 16) :: rest) = some (n, rest) := by
  have h3 := hexVal_hexDigitChar (n / 4096 % 16) (by omega)
  have h2 := hexVal_hexDigitChar (n / 256 % 16) (by omega)
  have h1 := hexVal_hexDigitChar (n / 16 % 16) (by omega)
  have h0 := hexVal_hexDigitChar (n % 16) (by omega)
  simp only [parseHex4, h3, h2, h1, h0]
  congr 1
  have harith : ((n / 4096 % 16 * 16 + n / 256 % 16) * 16 + n / 16 % 16) * 16 + n % 16 = n := by
    omega
  rw [harith]


theorem psb_quote (f : Nat) (rest : List Char) :
    parseStringBody (f + 1) (quoteC :: rest) = some ([], rest) := by
  conv_lhs => unfold parseStringBody
  dsimp only
  rw [if_pos rfl]

theorem psb_backslash (f : Nat) (rest rest2 : List Char) (d : Char)
    (h : parseEscapeSeq rest = some (d, rest2)) :
    parseStringBody (f + 1) (backslashC :: rest) =
      (parseStringBody f rest2).map (fun p => (d :: p.1, p.2)) := by
  conv_lhs => unfold parseStringBody
  dsimp only
  rw [if_neg (by decide), if_pos rfl, h]

theorem psb_lit (f : Nat) (rest : List Char) (c : Char)
    (h1 : c ≠ quoteC) (h2 : c ≠ backslashC) (h3 : ¬(c.toNat < 32)) :
    parseStringBody (f + 1) (c :: rest) =
      (parseStringBody f rest).map (fun p => (c :: p.1, p.2)) := by
  conv_lhs => unfold parseStringBody
  dsimp only
  rw [if_neg h1, if_neg h2, if_neg h3]

theorem pes_u_bmp (n : Nat) (hn : n < 65536) (hns : ¬(55296 ≤ n ∧ n < 57344))
    (rest2 : List Char) :
    parseEscapeSeq ('u' :: hexDigitChar (n / 4096 % 16) :: hexDigitChar (n / 256 % 16) ::
      hexDigitChar (n / 16 % 16) :: hexDigitChar (n % 16) :: rest2) =
      some (Char.ofNat n, rest2) := by
  conv_lhs => unfold parseEscapeSeq
  dsimp only
  rw [if_neg (by decide), if_neg (by decide), if_neg (by decide), if_neg (by decide),
    if_neg (by decide), if_neg (by decide), if_neg (by decide), if_neg (by decide),
    if_pos rfl, parseHex4_digits n hn rest2]
  dsimp only
  rw [if_neg (by omega), if_neg (by omega)]

theorem pes_u_pair (n : Nat) (hlo : 65536 ≤ n) (hhi : n < 1114112) (rest2 : List Char) :
    parseEscapeSeq ('u' ::
      hexDigitChar ((55296 + (n - 65536) / 1024) / 4096 % 16) ::
      hexDigitChar ((55296 + (n - 65536) / 1024) / 256 % 16) ::
      hexDigitChar ((55296 + (n - 65536) / 1024) / 16 % 16) ::
      hexDigitChar ((55296 + (n - 65536) / 1024) % 16) ::
      (backslashC :: 'u' ::
        hexDigitChar ((56320 + (n - 65536) % 1024) / 4096 % 16) ::
        hexDigitChar ((56320 + (n - 65536) % 1024) / 256 % 16) ::
        hexDigitChar ((56320 + (n - 65536) % 1024) / 16 % 16) ::
        hexDigitChar ((56320 + (n - 65536) % 1024) % 16) :: rest2)) =
      some (Char.ofNat n, rest2) := by
  conv_lhs => unfold parseEscapeSeq
  dsimp only
  rw [if_neg (by decide), if_neg (by decide), if_neg (by decide), if_neg (by decide),
    if_neg (by decide), if_neg (by decide), if_neg (by decide), if_neg (by decide),
    if_pos rfl, parseHex4_digits (55296 + (n - 65536) / 1024) (by omega)]
  simp only []
  rw [if_pos (by omega), if_pos ⟨trivial, trivial⟩,
    parseHex4_digits (56320 + (n - 65536) % 1024) (by omega)]
  simp only []
  rw [if_pos (by omega)]
  have hcomb : 65536 + (55296 + (n - 65536) / 1024 - 55296) * 1024 +
      (56320 + (n - 65536) % 1024 - 56320) = n := by
    omega
  rw [hcomb]

theorem psb_escapeChar (c : Char) (rest2 : List Char) (f : Nat) :
    parseStringBody (f + 1) (escapeChar c ++ rest2) =
      (parseStringBody f rest2).map (fun p => (c :: p.1, p.2)) := by
  by_cases h1 : c = quoteC
  · subst h1
    have hesc : escapeChar quoteC = [backslashC, quoteC] := by
      unfold escapeChar
      rw [if_pos rfl]
    rw [hesc, List.cons_append, List.cons_append, List.nil_append]
    exact psb_backslash f _ rest2 quoteC rfl
  · by_cases h2 : c = backslashC
    · subst h2
      have hesc : escapeChar backslashC = [backslashC, backslashC] := by
        unfold escapeChar
        rw [if_neg (by decide), if_pos rfl]
      rw [hesc, List.cons_append, List.cons_append, List.nil_append]
      exact psb_backslash f _ rest2 backslashC rfl
    · by_cases h3 : c = Char.ofNat 8
      · subst h3
        have hesc : escapeChar (Char.ofNat 8) = [backslashC, 'b'] := by
          unfold escapeChar
          rw [if_neg (by decide), if_neg (by decide), if_pos rfl]
        rw [hesc, List.cons_append, List.cons_append, List.nil_append]
        exact psb_backslash f _ rest2 (Char.ofNat 8) rfl
      · by_cases h4 : c = Char.ofNat 9
        · subst h4
          have hesc : escapeChar (Char.ofNat 9) = [backslashC, 't'] := by
            unfold escapeChar
            rw [if_neg (by decide), if_neg (by decide), if_neg (by decide), if_pos rfl]
          rw [hesc, List.cons_append, List.cons_append, List.nil_append]
          exact psb_backslash f _ rest2 (Char.ofNat 9) rfl
        · by_cases h5 : c = Char.ofNat 10
          · subst h5
            have hesc : escapeChar (Char.ofNat 10) = [backslashC, 'n'] := by
              unfold escapeChar
              rw [if_neg (by decide), if_neg (by decide), if_neg (by decide),
                if_neg (by decide), if_pos rfl]
            rw [hesc, List.cons_append, List.cons_append, List.nil_append]
            exact psb_backslash f _ rest2 (Char.ofNat 10) rfl
          · by_cases h6 : c = Char.ofNat 12
            · subst h6
              have hesc : escapeChar (Char.ofNat 12) = [backslashC, 'f'] := by
                unfold escapeChar
                rw [if_neg (by decide), if_neg (by decide), if_neg (by decide),
                  if_neg (by decide), if_neg (by decide), if_pos rfl]
              rw [hesc, List.cons_append, List.cons_append, List.nil_append]
              exact psb_backslash f _ rest2 (Char.ofNat 12) rfl
            · by_cases h7 : c = Char.ofNat 13
              · subst h7
                have hesc : escapeChar (Char.ofNat 13) = [backslashC, 'r'] := by
                  unfold escapeChar
                  rw [if_neg (by decide), if_neg (by decide), if_neg (by decide),
                    if_neg (by decide), if_neg (by decide), if_neg (by decide), if_pos rfl]
                rw [hesc, List.cons_append, List.cons_append, List.nil_append]
                exact psb_backslash f _ rest2 (Char.ofNat 13) rfl
              · by_cases h8 : 32 ≤ c.toNat ∧ c.toNat ≤ 126
                · have hesc : escapeChar c = [c] := by
                    unfold escapeChar
                    rw [if_neg h1, if_neg h2, if_neg h3, if_neg h4, if_neg h5, if_neg h6,
                      if_neg h7, if_pos h8]
                  rw [hesc, List.cons_append, List.nil_append]
                  exact psb_lit f rest2 c h1 h2 (by omega)
                · obtain ⟨hlt, hnosur⟩ := char_valid_range c
                  by_cases h9 : c.toNat < 65536
                  · have hesc : escapeChar c = uEscape c.toNat := by
                      unfold escapeChar
                      rw [if_neg h1, if_neg h2, if_neg h3, if_neg h4, if_neg h5, if_neg h6,
                        if_neg h7, if_neg h8, if_pos h9]
                    rw [hesc]
                    unfold uEscape
                    simp only [List.cons_append, List.nil_append]
                    rw [psb_backslash f _ rest2 (Char.ofNat c.toNat)
                      (pes_u_bmp c.toNat h9 (by omega) rest2), Char.ofNat_toNat]
                  · have hesc : escapeChar c =
                        uEscape (55296 + (c.toNat - 65536) / 1024) ++
                          uEscape (56320 + (c.toNat - 65536) % 1024) := by
                      unfold escapeChar
                      rw [if_neg h1, if_neg h2, if_neg h3, if_neg h4, if_neg h5, if_neg h6,
                        if_neg h7, if_neg h8, if_neg h9]
                    rw [hesc]
                    unfold uEscape
                    simp only [List.cons_append, List.nil_append, List.append_assoc]
                    rw [psb_backslash f _ rest2 (Char.ofNat c.toNat)
                      (pes_u_pair c.toNat (by omega) hlt rest2), Char.ofNat_toNat]

theorem psb_escapeString (s : List Char) :
    ∀ fuel rest, s.length + 1 ≤ fuel →
      parseStringBody fuel (escapeString s ++ quoteC :: rest) = some (s, rest) := by
  induction s with
  | nil =>
    intro fuel rest hf
    rcases fuel with _ | f
    · omega
    · show parseStringBody (f + 1) (quoteC :: rest) = some ([], rest)
      exact psb_quote f rest
  | cons c s ih =>
    intro fuel rest hf
    rcases fuel with _ | f
    · omega
    · have hes : escapeString (c :: s) = escapeChar c ++ escapeString s := by
        simp [escapeString]
      rw [hes, List.append_assoc, psb_escapeChar c _ f,
        ih f rest (by simp at hf; omega)]
      rfl

theorem length_le_escapeString (s : List Char) : s.length ≤ (escapeString s).length := by
  induction s with
  | nil => simp [escapeString]
  | cons c s ih =>
    have hes : escapeString (c :: s) = escapeChar c ++ escapeString s := by
      simp [escapeString]
    rw [hes, List.length_append, List.length_cons]
    have h1 : 1 ≤ (escapeChar c).length := by
      unfold escapeChar
      repeat' split
      all_goals simp [uEscape]
    omega

theorem skipWs_cons_notWs (c : Char) (s : List Char) (h : isJsonWs c = false) :
    skipWs (c :: s) = c :: s := by
  simp [skipWs, List.dropWhile_cons, h]

theorem skipWs_indent (x : List Char) :
    skipWs ('\n' :: indent4 ++ x) = skipWs x := by
  simp [skipWs, indent4, List.dropWhile_cons, show isJsonWs '\n' = true by decide,
    show isJsonWs ' ' = true by decide]

theorem quoteC_notWs : isJsonWs quoteC = false := by decide

theorem parseMemberKV_render (k v tail : List Char) :
    parseMemberKV (renderEntryJson k v ++ tail) = some ((k, v), tail) := by
  have hshape : renderEntryJson k v ++ tail =
      quoteC :: (escapeString k ++ quoteC ::
        (':' :: ' ' :: quoteC :: (escapeString v ++ quoteC :: tail))) := by
    simp [renderEntryJson]
  rw [hshape]
  conv_lhs => unfold parseMemberKV
  dsimp only
  rw [if_pos rfl]
  have hk : parseStringBody
      ((escapeString k ++ quoteC ::
        (':' :: ' ' :: quoteC :: (escapeString v ++ quoteC :: tail))).length + 1)
      (escapeString k ++ quoteC ::
        (':' :: ' ' :: quoteC :: (escapeString v ++ quoteC :: tail))) =
      some (k, ':' :: ' ' :: quoteC :: (escapeString v ++ quoteC :: tail)) := by
    apply psb_escapeString
    have := length_le_escapeString k
    simp only [List.length_append, List.length_cons]
    omega
  rw [hk]
  simp only []
  rw [skipWs_cons_notWs ':' _ (by decide)]
  simp only []
  have hsp : skipWs (' ' :: quoteC :: (escapeString v ++ quoteC :: tail)) =
      quoteC :: (escapeString v ++ quoteC :: tail) := by
    simp only [skipWs, List.dropWhile_cons]
    rw [if_pos (by decide)]
    simp [skipWs, List.dropWhile_cons, quoteC_notWs]
  rw [hsp]
  simp only []
  rw [if_pos trivial]
  have hv : parseStringBody ((escapeString v ++ quoteC :: tail).length + 1)
      (escapeString v ++ quoteC :: tail) = some (v, tail) := by
    apply psb_escapeString
    have := length_le_escapeString v
    simp only [List.length_append, List.length_cons]
    omega
  rw [hv]

theorem renderMembers_head (m : List (List Char × List Char)) (hm : m ≠ []) :
    ∃ t, renderMembers m = quoteC :: t := by
  rcases m with _ | ⟨⟨k, v⟩, rest⟩
  · exact absurd rfl hm
  · rcases rest with _ | ⟨m2, rest2⟩
    · exact ⟨_, rfl⟩
    · exact ⟨_, rfl⟩

theorem parseMembers_render (m : List (List Char × List Char)) :
    ∀ fuel, m ≠ [] → m.length ≤ fuel →
      parseMembers fuel (renderMembers m ++ '\n' :: [rbraceC]) = some m := by
  induction m with
  | nil => exact fun fuel h _ => absurd rfl h
  | cons kv m ih =>
    intro fuel _ hf
    obtain ⟨k, v⟩ := kv
    rcases fuel with _ | f
    · simp at hf
    · rcases m with _ | ⟨kv2, m2⟩
      · have hr : renderMembers [(k, v)] ++ '\n' :: [rbraceC] =
            renderEntryJson k v ++ ('\n' :: [rbraceC]) := by
          simp [renderMembers]
        rw [hr]
        conv_lhs => unfold parseMembers
        rw [parseMemberKV_render k v ('\n' :: [rbraceC])]
        simp only []
        have hsw : skipWs ('\n' :: [rbraceC]) = [rbraceC] := by
          simp [skipWs, List.dropWhile_cons, show isJsonWs '\n' = true by decide,
            show isJsonWs rbraceC = false by decide]
        simp only [hsw]
        split
        · rename_i r5 heq
          exfalso
          injection heq with h1 h2
          exact absurd h1 (by decide)
        · rename_i c2 r5 hne heq
          injection heq with h1 h2
          subst h1
          subst h2
          rw [if_pos rfl, if_pos (by simp [skipWs])]
        · rename_i heq
          exact absurd heq (by simp)
      · have hr : renderMembers ((k, v) :: kv2 :: m2) ++ '\n' :: [rbraceC] =
            renderEntryJson k v ++
              (',' :: ('\n' :: indent4 ++ (renderMembers (kv2 :: m2) ++ '\n' :: [rbraceC]))) := by
          simp [renderMembers]
        rw [hr]
        conv_lhs => unfold parseMembers
        rw [parseMemberKV_render k v _]
        simp only []
        have hsw : skipWs (',' :: ('\n' :: indent4 ++ (renderMembers (kv2 :: m2) ++ '\n' :: [rbraceC]))) =
            ',' :: ('\n' :: indent4 ++ (renderMembers (kv2 :: m2) ++ '\n' :: [rbraceC])) :=
          skipWs_cons_notWs ',' _ (by decide)
        simp only [hsw]
        have hsw2 : skipWs ('\n' :: indent4 ++ (renderMembers (kv2 :: m2) ++ '\n' :: [rbraceC])) =
            renderMembers (kv2 :: m2) ++ '\n' :: [rbraceC] := by
          rw [skipWs_indent]
          obtain ⟨t, ht⟩ := renderMembers_head (kv2 :: m2) (by simp)
          rw [ht, List.cons_append]
          exact skipWs_cons_notWs quoteC _ quoteC_notWs
        simp only [hsw2]
        rw [ih f (by simp) (by
          simp only [List.length_cons] at hf ⊢
          omega)]

theorem length_le_renderMembers (m : List (List Char × List Char)) :
    m.length ≤ (renderMembers m).length := by
  induction m with
  | nil => simp [renderMembers]
  | cons kv m ih =>
    obtain ⟨k, v⟩ := kv
    rcases m with _ | ⟨kv2, m2⟩
    · simp [renderMembers, renderEntryJson]
    · have hr : renderMembers ((k, v) :: kv2 :: m2) =
          renderEntryJson k v ++ ',' :: '\n' :: indent4 ++ renderMembers (kv2 :: m2) := rfl
      rw [hr]
      simp only [List.length_append, List.length_cons, indent4, renderEntryJson]
      simp only [List.length_cons] at ih ⊢
      omega

theorem json_roundtrip (m : List (List Char × List Char)) (hm : m ≠ []) :
    json_load (json_dump m) = some m := by
  have hdump : json_dump m =
      lbraceC :: ('\n' :: indent4 ++ (renderMembers m ++ '\n' :: [rbraceC])) := by
    unfold json_dump
    rw [if_neg hm]
    simp
  obtain ⟨t, ht⟩ := renderMembers_head m hm
  have hsw : skipWs ('\n' :: indent4 ++ (renderMembers m ++ '\n' :: [rbraceC])) =
      renderMembers m ++ '\n' :: [rbraceC] := by
    rw [skipWs_indent, ht, List.cons_append]
    exact skipWs_cons_notWs quoteC _ quoteC_notWs
  rw [hdump]
  unfold json_load
  rw [skipWs_cons_notWs lbraceC _ (by decide)]
  simp only []
  rw [if_pos trivial]
  simp only [hsw]
  rw [ht, List.cons_append]
  simp only []
  rw [if_neg (by decide), ← List.cons_append, ← ht]
  apply parseMembers_render m _ hm
  have h1 := length_le_renderMembers m
  simp only [List.length_cons, List.length_append, indent4]
  omega

theorem upsertReport_ne_nil (r : List (List Char × List Char)) (k v : List Char) :
    upsertReport r k v ≠ [] := by
  unfold upsertReport
  by_cases h : r.any (fun e => e.1 = k) = true
  · rw [if_pos h]
    rcases r with _ | ⟨e, r2⟩
    · simp at h
    · simp
  · rw [if_neg h]
    simp

/-- C9: persisting the registry (the full-file JSON rewrite of
`update_landing_page`) and loading it back reproduces the in-memory mapping
exactly: for every non-empty mapping of string keys to string values, the
rendered store parses back to the same association list, also through the
corrupt-tolerant loader shared with the `index` route; and a full
`update_landing_page` cycle (load, guarded upsert, rewrite) followed by a
load yields exactly the upserted mapping. -/
theorem C9_registry_roundtrip :
    (∀ m : List (List Char × List Char), m ≠ [] →
      json_load (json_dump m) = some m ∧ loadReports (some (json_dump m)) = m) ∧
      (∀ (store : Option (List Char)) (video_id video_title : List Char),
        video_id ≠ [] → video_title ≠ [] →
        loadReports (some (update_landing_page store video_id video_title)) =
          upsertReport (loadReports store) video_id video_title) := by
  constructor
  · intro m hm
    have h := json_roundtrip m hm
    exact ⟨h, by simp [loadReports, h]⟩
  · intro store video_id video_title hk hv
    have hupd : update_landing_page store video_id video_title =
        json_dump (upsertReport (loadReports store) video_id video_title) := by
      unfold update_landing_page
      dsimp only
      rw [if_pos ⟨hk, hv⟩]
    rw [hupd]
    set X := upsertReport (loadReports store) video_id video_title with hX
    have h := json_roundtrip X (upsertReport_ne_nil _ _ _)
    simp [loadReports, h]

/-- Closed instance of `C9_registry_roundtrip`: a one-entry registry mapping
a video id to a title survives the rewrite-and-load cycle. -/
theorem C9_registry_roundtrip_witness :
    json_load (json_dump [("dQw4w9WgXcQ".toList, "Never Gonna Give You Up".toList)]) =
      some [("dQw4w9WgXcQ".toList, "Never Gonna Give You Up".toList)] :=
  (C9_registry_roundtrip.1 [("dQw4w9WgXcQ".toList, "Never Gonna Give You Up".toList)]
    (by simp)).1
